import Mathlib

/-!
# CppTaskManager: the timer-based thread pool

A verification development for `src/ThreadPool.h` and `src/ThreadPool.cpp`.

Modelling conventions.

* `std::chrono::steady_clock::time_point` and `steady_clock::duration` are
  integer counts of nanoseconds (the steady clock's tick); a
  `std::chrono::milliseconds` value is its integer count of milliseconds.
  Every sum, difference and unit conversion the code makes on them is a
  signed 64-bit operation: its result is the mathematical one reduced into
  the 64-bit range (`wrap64`).
* A `std::function` is modelled by the identity of the callable it stores
  (`some name`), or `none` for an empty `std::function` (the one that tests
  false in `if (!func)`).  What a callable does when invoked is given by a
  `Callables` table acting on the state the closures capture.
* `std::priority_queue<ScheduledTask, std::vector<ScheduledTask>, TaskCompare>`
  is its underlying vector, kept as the C++ standard prescribes:
  `push`/`emplace` is `push_back` followed by `std::push_heap`, `pop` is
  `std::pop_heap` followed by `pop_back`, `top` is `front()`.  The heap
  functions are a binary heap under `TaskCompare`; which of several tasks
  with equal due times comes first is not fixed by the standard, and no
  statement below depends on it.
* Threads are interleaved at the accesses to what they share: every load of
  `stop_`, every stretch of code under `queueMutex_` up to a wait, every call
  of a callable and every clock reading is one step.  A thread blocked in a
  wait may wake at any time (a notification or a spurious wake-up); the
  steady clock advances by ticks of any size and never goes back.
-/

namespace CppTaskManager

/-! ## Data model (`ThreadPool.h`) -/

/-- A point of the monotonic clock, in nanoseconds. -/
abbrev TimePoint := Int

/-- The value a signed 64-bit operation stores for the mathematical result
`x`: the representative of `x` modulo `2^64` in `[-2^63, 2^63)`. -/
def wrap64 (x : Int) : Int :=
  (x + 9223372036854775808) % 18446744073709551616 - 9223372036854775808

/-- The value `x` fits a signed 64-bit integer. -/
def InRange64 (x : Int) : Prop :=
  -9223372036854775808 ≤ x ∧ x < 9223372036854775808

instance (x : Int) : Decidable (InRange64 x) := by
  unfold InRange64
  exact inferInstance

/-- The struct `ScheduledTask` of `ThreadPool.h`. -/
structure ScheduledTask where
  /-- The code to run (`std::function<void()>`), `none` when empty. -/
  func : Option Nat
  /-- The condition (`std::function<bool()>`), `none` when empty. -/
  condition : Option Nat
  /-- When to run. -/
  nextRunTime : TimePoint
  /-- The repeat interval, a count of milliseconds. -/
  repeatInterval : Int
deriving DecidableEq, Repr

/-- The functor `TaskCompare`: `lhs.nextRunTime > rhs.nextRunTime`. -/
def TaskCompare (lhs rhs : ScheduledTask) : Bool :=
  decide (lhs.nextRunTime > rhs.nextRunTime)

/-! ## The priority queue over a vector -/

/-- The vector under `taskQueue_`. -/
abbrev TaskQueue := List ScheduledTask

/-- Exchange of the elements at positions `i` and `j` (`std::iter_swap`). -/
def swapAt (v : TaskQueue) (i j : Nat) : TaskQueue :=
  match v[i]?, v[j]? with
  | some a, some b => (v.set i b).set j a
  | _, _ => v

/-- The loop of `std::push_heap`: the element at `i` moves towards the root
while `comp(parent, element)` holds.  The first argument bounds the number
of levels. -/
def siftUp : Nat → TaskQueue → Nat → TaskQueue
  | 0, v, _ => v
  | fuel + 1, v, i =>
    if i = 0 then v
    else
      match v[(i - 1) / 2]?, v[i]? with
      | some a, some b =>
        if TaskCompare a b then siftUp fuel (swapAt v ((i - 1) / 2) i) ((i - 1) / 2)
        else v
      | _, _ => v

/-- The function `std::push_heap` on the whole vector: the last element is
placed into the heap formed by the others. -/
def pushHeap (v : TaskQueue) : TaskQueue :=
  siftUp v.length v (v.length - 1)

/-- The child of `i` that comes first under `comp`, among the positions
below `n`: the right one when `comp(left, right)`, else the left one. -/
def firstChild (v : TaskQueue) (n i : Nat) : Nat :=
  match v[2 * i + 1]?, v[2 * i + 2]? with
  | some l, some r => if 2 * i + 2 < n ∧ TaskCompare l r = true then 2 * i + 2 else 2 * i + 1
  | _, _ => 2 * i + 1

/-- The downward loop of `std::pop_heap` on the range `[0, n)`: the element
at `i` moves towards the leaves while `comp(element, child)` holds for its
first child. -/
def siftDown : Nat → TaskQueue → Nat → Nat → TaskQueue
  | 0, v, _, _ => v
  | fuel + 1, v, n, i =>
    if 2 * i + 1 < n then
      match v[i]?, v[firstChild v n i]? with
      | some a, some c =>
        if TaskCompare a c then
          siftDown fuel (swapAt v i (firstChild v n i)) n (firstChild v n i)
        else v
      | _, _ => v
    else v

/-- The function `std::pop_heap` on the whole vector: the first element is
exchanged with the last, and the range without the last is made a heap. -/
def popHeap (v : TaskQueue) : TaskQueue :=
  if 1 < v.length then
    siftDown v.length (swapAt v 0 (v.length - 1)) (v.length - 1) 0
  else v

/-- The call `taskQueue_.empty()`. -/
def TaskQueue.empty (v : TaskQueue) : Bool := v.isEmpty

/-- The call `taskQueue_.top()`: the front of the vector. -/
def TaskQueue.top (v : TaskQueue) : Option ScheduledTask := v.head?

/-- The call `taskQueue_.emplace(...)`: `push_back`, then `push_heap`. -/
def TaskQueue.emplace (v : TaskQueue) (t : ScheduledTask) : TaskQueue :=
  pushHeap (v ++ [t])

/-- The call `taskQueue_.pop()`: `pop_heap`, then `pop_back`. -/
def TaskQueue.pop (v : TaskQueue) : TaskQueue :=
  (popHeap v).dropLast


/-! ## The heap condition -/

/-- The due time stored at position `i` of the vector (0 outside it). -/
def keyAt (v : TaskQueue) (i : Nat) : TimePoint :=
  match v[i]? with
  | some a => a.nextRunTime
  | none => 0

/-- The heap condition of `std::is_heap` on the range `[0, n)` under
`TaskCompare`: no element is due before its parent. -/
def HeapUpTo (v : TaskQueue) (n : Nat) : Prop :=
  ∀ i, i < n → keyAt v ((i - 1) / 2) ≤ keyAt v i

/-- The whole vector is a heap under `TaskCompare`. -/
def IsHeap (v : TaskQueue) : Prop := HeapUpTo v v.length


/-! ## Callables and the pool state -/

/-- What the stored callables do when invoked, on the state `σ` their
closures capture: `act f` is the call `taskFunc()` of the callable named
`f`, `cond c` the call `taskCond()` of the callable named `c`, with its
returned boolean. -/
structure Callables (σ : Type) where
  act : Nat → σ → σ
  cond : Nat → σ → Bool × σ

/-- Where a worker is in `ThreadPool::workerThread`, with the locals that are
live there (`taskFunc`, `taskCond`, `repeatMs`, `nextTime`, and the deadline
of a timed wait). -/
inductive Pc where
  /-- Line 63: about to evaluate `!stop_.load()` of the `while`. -/
  | loopHead
  /-- Line 69: about to lock `queueMutex_`. -/
  | lockQueue
  /-- Line 73: holds the mutex, evaluates the predicate of `cv_.wait`. -/
  | waitEmptyPred
  /-- Line 73: blocked inside `cv_.wait`, the mutex released. -/
  | waitEmptyBlocked
  /-- Line 76: `cv_.wait` has returned, the mutex held. -/
  | waitEmptyDone
  /-- Line 87: holds the mutex, evaluates the predicate of `cv_.wait_for`. -/
  | timedPred (deadline : TimePoint)
  /-- Line 87: blocked inside `cv_.wait_for`, the mutex released. -/
  | timedBlocked (deadline : TimePoint)
  /-- Line 92: `cv_.wait_for` has returned, the mutex held. -/
  | timedDone
  /-- Line 108: the block is left, the mutex released. -/
  | runTask (taskFunc taskCond : Option Nat) (repeatMs : Int)
  /-- Line 113: about to evaluate `!stop_.load()` after the run. -/
  | checkStop (taskFunc taskCond : Option Nat) (repeatMs : Int)
  /-- Line 123: about to call `taskCond()`. -/
  | evalCond (taskFunc : Option Nat) (cond : Nat) (repeatMs : Int)
  /-- Line 127: about to read the clock. -/
  | readClock (taskFunc taskCond : Option Nat) (repeatMs : Int)
  /-- Line 133: about to lock the mutex and emplace the task again. -/
  | requeue (taskFunc taskCond : Option Nat) (nextTime : TimePoint) (repeatMs : Int)
  /-- The function `workerThread` has returned. -/
  | exited
deriving DecidableEq, Repr

/-- What the pool has done so far (a record kept beside the state; nothing
reads it). -/
inductive Event where
  /-- Worker `w` removed `t` from the queue; `now` is its clock reading. -/
  | popped (w : Nat) (t : ScheduledTask) (now : TimePoint)
  /-- Worker `w` called the action named `f`. -/
  | ran (w : Nat) (f : Nat)
  /-- Worker `w` called the condition `c` of the task whose action is
  `taskFunc`; it returned `r`. -/
  | condReturned (w : Nat) (taskFunc : Option Nat) (c : Nat) (r : Bool)
  /-- Worker `w` emplaced `t` again. -/
  | requeued (w : Nat) (t : ScheduledTask)
  /-- A call of `scheduleOnce` or `scheduleRepeating` emplaced `t`. -/
  | submitted (t : ScheduledTask)
  /-- The destructor stored `true` into `stop_`. -/
  | stopRequested
deriving DecidableEq, Repr

/-- The members of `ThreadPool` and what surrounds them: the workers, the
queue, the mutex (its holder), the stop flag; the steady clock and the state
the callables act on. -/
structure ThreadPool (σ : Type) where
  workers_ : List Pc
  taskQueue_ : TaskQueue
  queueMutex_ : Option Nat
  stop_ : Bool
  clock : TimePoint
  world : σ
  log : List Event

/-- The constructor `ThreadPool(numThreads)`: `numThreads` workers at the
start of `workerThread`, an empty queue, `stop_` false. -/
def ThreadPool.create {σ : Type} (numThreads : Nat) (clock : TimePoint) (world : σ) :
    ThreadPool σ :=
  { workers_ := List.replicate numThreads Pc.loopHead
    taskQueue_ := []
    queueMutex_ := none
    stop_ := false
    clock := clock
    world := world
    log := [] }

/-! ## Task submission (`scheduleOnce`, `scheduleRepeating`) -/

/-- The function `ThreadPool::scheduleOnce(func, delay)`; `now` is the value
of `steady_clock::now()` at line 28, whose sum with `delay` is a 64-bit sum. -/
def scheduleOnce {σ : Type} (p : ThreadPool σ) (now : TimePoint) (func : Option Nat)
    (delay : Int) : ThreadPool σ :=
  match func with
  | none => p
  | some f =>
    let startTime := wrap64 (now + delay)
    let t : ScheduledTask := ⟨some f, none, startTime, 0⟩
    { p with taskQueue_ := p.taskQueue_.emplace t, log := Event.submitted t :: p.log }

/-- The function `ThreadPool::scheduleRepeating(func, delay, interval,
condition)`; `now` is the value of `steady_clock::now()` at line 48, whose sum
with `delay` is a 64-bit sum. -/
def scheduleRepeating {σ : Type} (p : ThreadPool σ) (now : TimePoint) (func : Option Nat)
    (delay : Int) (interval : Int) (condition : Option Nat) : ThreadPool σ :=
  match func with
  | none => p
  | some f =>
    let startTime := wrap64 (now + delay)
    let t : ScheduledTask := ⟨some f, condition, startTime, interval⟩
    { p with taskQueue_ := p.taskQueue_.emplace t, log := Event.submitted t :: p.log }

/-! ## The pieces of `workerThread` -/

/-- The predicate of `cv_.wait` (line 74): `stop_.load() || !taskQueue_.empty()`. -/
def waitPred (stop_ : Bool) (q : TaskQueue) : Bool :=
  stop_ || !q.empty

/-- What the reference `top` of line 82 denotes when it is read later: it
refers to the front slot of the vector (`taskQueue_.top()` returns
`c.front()` by reference), so it denotes the element stored there at the
time of the read.  (When the vector has been reallocated since, the read is
undefined; this covers the reads that are defined.) -/
def derefTop (q : TaskQueue) : Option ScheduledTask := q.head?

/-- The predicate of `cv_.wait_for` (lines 89-90):
`stop_.load() || taskQueue_.empty() || taskQueue_.top().nextRunTime < top.nextRunTime`,
with `top` the reference captured by the lambda. -/
def timedWaitPred (stop_ : Bool) (q : TaskQueue) : Bool :=
  stop_ || q.empty ||
    (match q.top, derefTop q with
     | some cur, some top => decide (cur.nextRunTime < top.nextRunTime)
     | _, _ => false)

/-- How the locked block of lines 68-105 continues once the mutex is held. -/
inductive Locked where
  /-- The queue is empty: `cv_.wait`. -/
  | waitEmpty
  /-- The first task is not due: `cv_.wait_for` until `deadline`. -/
  | timedWait (deadline : TimePoint)
  /-- The first task is due: it is copied into the locals and popped. -/
  | ready (top : ScheduledTask) (rest : TaskQueue)
deriving DecidableEq, Repr

/-- Lines 71-103 up to the first wait: `now` is the clock reading of line 81.
The deadline of `cv_.wait_for` is `waitDuration` (line 86, a 64-bit
difference) after the clock reading the call takes itself, which falls into
the same step as that of line 81. -/
def lockedSection (now : TimePoint) (q : TaskQueue) : Locked :=
  if q.empty then Locked.waitEmpty
  else
    match q.top with
    | none => Locked.waitEmpty
    | some top =>
      if top.nextRunTime > now then
        Locked.timedWait (wrap64 (now + wrap64 (top.nextRunTime - now)))
      else Locked.ready top q.pop

/-- The test of lines 117-118:
`(repeatMs.count() > 0) || ((repeatMs.count() == 0) && taskCond)`. -/
def repeats (repeatMs : Int) (taskCond : Option Nat) : Bool :=
  decide (repeatMs > 0) || (decide (repeatMs = 0) && taskCond.isSome)

/-- One microsecond, in ticks of the steady clock. -/
def microsecond : Int := 1000

/-- One millisecond, in ticks of the steady clock. -/
def millisecond : Int := 1000000

/-- Lines 128-130: `now + microseconds(1)` when the interval is zero, else
`now + repeatMs`.  The interval is first converted to ticks of the clock (a
64-bit product), then added (a 64-bit sum). -/
def nextTime (now : TimePoint) (repeatMs : Int) : TimePoint :=
  if repeatMs = 0 then wrap64 (now + wrap64 (1 * microsecond))
  else wrap64 (now + wrap64 (repeatMs * millisecond))

/-! ## The interleaving semantics -/

/-- One atomic step of the system. -/
inductive Action where
  /-- Worker `i` executes its next statement of `workerThread`; for a worker
  blocked in `cv_.wait_for`, the wait times out. -/
  | worker (i : Nat)
  /-- Worker `i`, blocked in a wait, is woken (by `notify_one`, by
  `notify_all`, or spuriously) and locks the mutex again. -/
  | wake (i : Nat)
  /-- The steady clock advances by `d` ticks. -/
  | tick (d : Nat)
  /-- The destructor executes `stop_.store(true)` (line 13). -/
  | requestStop
  /-- Some thread completes `scheduleOnce(func, delay)`, having read `now`
  from the clock. -/
  | scheduleOnce (now : TimePoint) (func : Option Nat) (delay : Int)
  /-- Some thread completes `scheduleRepeating(func, delay, interval,
  condition)`, having read `now` from the clock. -/
  | scheduleRepeating (now : TimePoint) (func : Option Nat) (delay : Int) (interval : Int)
      (condition : Option Nat)
deriving DecidableEq, Repr

/-- Worker `i` moves to `pc`. -/
def ThreadPool.goto {σ : Type} (p : ThreadPool σ) (i : Nat) (pc : Pc) : ThreadPool σ :=
  { p with workers_ := p.workers_.set i pc }

/-- The next statement of worker `i`, which is at `pc`; `none` when the
worker cannot move (the mutex is held by another thread, the worker is
blocked, or it has returned). -/
def workerThread {σ : Type} (env : Callables σ) (i : Nat) (pc : Pc) (p : ThreadPool σ) :
    Option (ThreadPool σ) :=
  match pc with
  | Pc.loopHead =>
    if p.stop_ then some (p.goto i Pc.exited) else some (p.goto i Pc.lockQueue)
  | Pc.lockQueue =>
    if p.queueMutex_.isSome then none
    else
      match lockedSection p.clock p.taskQueue_ with
      | Locked.waitEmpty => some { p.goto i Pc.waitEmptyPred with queueMutex_ := some i }
      | Locked.timedWait deadline =>
        some { p.goto i (Pc.timedPred deadline) with queueMutex_ := some i }
      | Locked.ready top rest =>
        some { p.goto i (Pc.runTask top.func top.condition top.repeatInterval) with
                taskQueue_ := rest, log := Event.popped i top p.clock :: p.log }
  | Pc.waitEmptyPred =>
    if waitPred p.stop_ p.taskQueue_ then some (p.goto i Pc.waitEmptyDone)
    else some { p.goto i Pc.waitEmptyBlocked with queueMutex_ := none }
  | Pc.waitEmptyBlocked => none
  | Pc.waitEmptyDone =>
    if p.stop_ then some { p.goto i Pc.exited with queueMutex_ := none }
    else some { p.goto i (Pc.runTask none none 0) with queueMutex_ := none }
  | Pc.timedPred deadline =>
    if timedWaitPred p.stop_ p.taskQueue_ then some (p.goto i Pc.timedDone)
    else some { p.goto i (Pc.timedBlocked deadline) with queueMutex_ := none }
  | Pc.timedBlocked deadline =>
    if deadline ≤ p.clock ∧ p.queueMutex_ = none then
      some { p.goto i Pc.timedDone with queueMutex_ := some i }
    else none
  | Pc.timedDone =>
    if p.stop_ then some { p.goto i Pc.exited with queueMutex_ := none }
    else some { p.goto i Pc.loopHead with queueMutex_ := none }
  | Pc.runTask taskFunc taskCond repeatMs =>
    match taskFunc with
    | some f =>
      some { p.goto i (Pc.checkStop taskFunc taskCond repeatMs) with
              world := env.act f p.world, log := Event.ran i f :: p.log }
    | none => some (p.goto i (Pc.checkStop taskFunc taskCond repeatMs))
  | Pc.checkStop taskFunc taskCond repeatMs =>
    if p.stop_ then some (p.goto i Pc.loopHead)
    else if repeats repeatMs taskCond then
      match taskCond with
      | some c => some (p.goto i (Pc.evalCond taskFunc c repeatMs))
      | none => some (p.goto i (Pc.readClock taskFunc taskCond repeatMs))
    else some (p.goto i Pc.loopHead)
  | Pc.evalCond taskFunc c repeatMs =>
    let keepGoing := (env.cond c p.world).1
    some { p.goto i (if keepGoing then Pc.readClock taskFunc (some c) repeatMs else Pc.loopHead)
            with world := (env.cond c p.world).2,
                 log := Event.condReturned i taskFunc c keepGoing :: p.log }
  | Pc.readClock taskFunc taskCond repeatMs =>
    some (p.goto i (Pc.requeue taskFunc taskCond (nextTime p.clock repeatMs) repeatMs))
  | Pc.requeue taskFunc taskCond next repeatMs =>
    if p.queueMutex_.isSome then none
    else
      some { p.goto i Pc.loopHead with
              taskQueue_ := p.taskQueue_.emplace ⟨taskFunc, taskCond, next, repeatMs⟩,
              log := Event.requeued i ⟨taskFunc, taskCond, next, repeatMs⟩ :: p.log }
  | Pc.exited => none

/-- Worker `i`, blocked in a wait, wakes and takes the mutex. -/
def wakeStep {σ : Type} (i : Nat) (pc : Pc) (p : ThreadPool σ) : Option (ThreadPool σ) :=
  if p.queueMutex_.isSome then none
  else
    match pc with
    | Pc.waitEmptyBlocked => some { p.goto i Pc.waitEmptyPred with queueMutex_ := some i }
    | Pc.timedBlocked deadline =>
      some { p.goto i (Pc.timedPred deadline) with queueMutex_ := some i }
    | _ => none

/-- One step of the system; `none` when the action is not enabled. -/
def step {σ : Type} (env : Callables σ) (a : Action) (p : ThreadPool σ) :
    Option (ThreadPool σ) :=
  match a with
  | Action.worker i =>
    match p.workers_[i]? with
    | some pc => workerThread env i pc p
    | none => none
  | Action.wake i =>
    match p.workers_[i]? with
    | some pc => wakeStep i pc p
    | none => none
  | Action.tick d => some { p with clock := p.clock + d }
  | Action.requestStop =>
    if p.stop_ then none
    else some { p with stop_ := true, log := Event.stopRequested :: p.log }
  | Action.scheduleOnce now func delay =>
    if now ≤ p.clock ∧ (func.isSome → p.queueMutex_ = none) then
      some (scheduleOnce p now func delay)
    else none
  | Action.scheduleRepeating now func delay interval condition =>
    if now ≤ p.clock ∧ (func.isSome → p.queueMutex_ = none) then
      some (scheduleRepeating p now func delay interval condition)
    else none

/-- The steps of a schedule, one after the other. -/
def run {σ : Type} (env : Callables σ) :
    List Action → ThreadPool σ → Option (ThreadPool σ)
  | [], p => some p
  | a :: as, p =>
    match step env a p with
    | some q => run env as q
    | none => none

/-! ## One run of a popped task (lines 107-143) in one piece -/

/-- Lines 108-110: `if (taskFunc) taskFunc();`. -/
def callFunc {σ : Type} (env : Callables σ) (taskFunc : Option Nat) (world : σ) : σ :=
  match taskFunc with
  | some f => env.act f world
  | none => world

/-- The record of lines 108-110 by worker `i`. -/
def ranLog (i : Nat) (taskFunc : Option Nat) : List Event :=
  match taskFunc with
  | some f => [Event.ran i f]
  | none => []

/-- What lines 107-143 leave behind. -/
structure Outcome (σ : Type) where
  /-- The state of the callables afterwards. -/
  world : σ
  /-- The task emplaced at line 134, if any. -/
  requeued : Option ScheduledTask
  /-- The calls and the emplacement made, latest first. -/
  log : List Event

/-- Lines 107-143 for worker `i` holding `taskFunc`, `taskCond`, `repeatMs`:
`stop_` is the value of `stop_.load()` at line 113, `now` the clock
reading of line 127. -/
def executeTask {σ : Type} (env : Callables σ) (i : Nat) (stop_ : Bool) (now : TimePoint)
    (taskFunc taskCond : Option Nat) (repeatMs : Int) (world : σ) : Outcome σ :=
  let w1 := callFunc env taskFunc world
  let l1 := ranLog i taskFunc
  if stop_ then ⟨w1, none, l1⟩
  else if repeats repeatMs taskCond then
    match taskCond with
    | some c =>
      let keepGoing := (env.cond c w1).1
      let w2 := (env.cond c w1).2
      if keepGoing then
        ⟨w2, some ⟨taskFunc, some c, nextTime now repeatMs, repeatMs⟩,
          Event.requeued i ⟨taskFunc, some c, nextTime now repeatMs, repeatMs⟩ ::
            Event.condReturned i taskFunc c true :: l1⟩
      else ⟨w2, none, Event.condReturned i taskFunc c false :: l1⟩
    | none =>
      ⟨w1, some ⟨taskFunc, none, nextTime now repeatMs, repeatMs⟩,
        Event.requeued i ⟨taskFunc, none, nextTime now repeatMs, repeatMs⟩ :: l1⟩
  else ⟨w1, none, l1⟩

/-- The number of calls of a condition in a record. -/
def condCalls : List Event → Nat
  | [] => 0
  | Event.condReturned _ _ _ _ :: l => condCalls l + 1
  | _ :: l => condCalls l

/-! ## The example program (`example/main.cpp`) -/

/-- The third task of `main`: the action increments `*zeroCount`, the
condition is `*zeroCount < 5`.  The captured state is the counter. -/
def zeroCountEnv : Callables Nat :=
  { act := fun _ count => count + 1
    cond := fun _ count => (decide (count < 5), count) }

/-- The worker is inside `cv_.wait_for` (lines 87-92). -/
def Pc.inTimedWait : Pc → Bool
  | Pc.timedPred _ => true
  | Pc.timedBlocked _ => true
  | Pc.timedDone => true
  | _ => false

/-! ## A far task, a first task and an urgent one -/

/-- A pool with one worker receives a task due after one second and a task
due at once; the worker runs the second and then blocks in `cv_.wait_for`
on the first.  (The vector has held two tasks, so the next `emplace` does
not reallocate it.) -/
def blockedOnFar : List Action :=
  [Action.scheduleOnce 0 (some 1) 1000000000, Action.scheduleOnce 0 (some 3) 0,
   Action.worker 0, Action.worker 0, Action.worker 0, Action.worker 0,
   Action.worker 0, Action.worker 0, Action.worker 0]

/-- Another thread schedules a task due after one microsecond and notifies;
the worker wakes and evaluates the predicate of `cv_.wait_for`. -/
def urgentArrives : List Action :=
  [Action.scheduleOnce 0 (some 2) 1000, Action.wake 0, Action.worker 0]

/-- Worker `i` alone makes its next steps until it is back at the loop head
(at most `n` of them). -/
def finishIteration {σ : Type} (env : Callables σ) (i : Nat) :
    Nat → ThreadPool σ → Option (ThreadPool σ)
  | 0, p => some p
  | n + 1, p =>
    match p.workers_[i]? with
    | some Pc.loopHead => some p
    | some _ =>
      match step env (Action.worker i) p with
      | some q => finishIteration env i n q
      | none => none
    | none => none

/-! ## States used as concrete inputs -/

/-- Three submissions into a fresh pool, due after 500, 100 and 300 ticks. -/
def threeSubmissions : List Action :=
  [Action.scheduleOnce 0 (some 1) 500, Action.scheduleOnce 0 (some 2) 100,
   Action.scheduleOnce 0 (some 3) 300]

/-- The pool after `threeSubmissions`. -/
def threePending : ThreadPool Nat :=
  { workers_ := [Pc.loopHead]
    taskQueue_ := [⟨some 2, none, 100, 0⟩, ⟨some 1, none, 500, 0⟩, ⟨some 3, none, 300, 0⟩]
    queueMutex_ := none
    stop_ := false
    clock := 0
    world := 0
    log := [Event.submitted ⟨some 3, none, 300, 0⟩, Event.submitted ⟨some 2, none, 100, 0⟩,
      Event.submitted ⟨some 1, none, 500, 0⟩] }

/-! ## Counting what workers do after the stop request -/

/-- The events recorded after `stop_` was set, latest first; empty when it
has not been set. -/
def sinceStop : List Event → List Event
  | [] => []
  | e :: l =>
    if e = Event.stopRequested then []
    else if Event.stopRequested ∈ l then e :: sinceStop l
    else []

/-- The number of tasks worker `i` removed from the queue in a record. -/
def popsBy (i : Nat) : List Event → Nat
  | [] => 0
  | Event.popped w _ _ :: l => (if w = i then 1 else 0) + popsBy i l
  | _ :: l => popsBy i l

/-- The number of actions worker `i` called in a record. -/
def runsBy (i : Nat) : List Event → Nat
  | [] => 0
  | Event.ran w _ :: l => (if w = i then 1 else 0) + runsBy i l
  | _ :: l => runsBy i l

/-- What a worker at `pc` can have popped and run since the stop request:
nothing while it is before its pop or past the check of line 113, at most
one pop and no run when it is about to run, at most one of each otherwise. -/
def stopBound (pc : Pc) (pops runs : Nat) : Prop :=
  match pc with
  | Pc.loopHead => pops ≤ 1 ∧ runs ≤ 1
  | Pc.exited => pops ≤ 1 ∧ runs ≤ 1
  | Pc.checkStop _ _ _ => pops ≤ 1 ∧ runs ≤ 1
  | Pc.runTask _ _ _ => pops ≤ 1 ∧ runs = 0
  | _ => pops = 0 ∧ runs = 0

/-- The stop flag is set exactly when the record says so, and then every
worker is within `stopBound`. -/
def StopInv {σ : Type} (p : ThreadPool σ) : Prop :=
  (p.stop_ = true ↔ Event.stopRequested ∈ p.log) ∧
  (p.stop_ = true → ∀ j pc, p.workers_[j]? = some pc →
    stopBound pc (popsBy j (sinceStop p.log)) (runsBy j (sinceStop p.log)))

/-- The destructor's `stop_.store(true)` falls between a worker's check at
the loop head and its locking of the mutex: the worker then pops the due task
and runs it. -/
def stopRace : List Action :=
  [Action.scheduleOnce 0 (some 7) 0, Action.worker 0, Action.requestStop,
   Action.worker 0, Action.worker 0, Action.worker 0, Action.worker 0]

/-! ## Following one repeating task through the pool -/

/-- The number of calls of the action `f` in a record. -/
def execsOf (f : Nat) : List Event → Nat
  | [] => 0
  | Event.ran _ g :: l => (if g = f then 1 else 0) + execsOf f l
  | _ :: l => execsOf f l

/-- The number of calls of the condition of the task with action `f` that
returned true. -/
def truesOf (f : Nat) : List Event → Nat
  | [] => 0
  | Event.condReturned _ taskFunc _ r :: l =>
    (if taskFunc = some f ∧ r = true then 1 else 0) + truesOf f l
  | _ :: l => truesOf f l

/-- The number of calls of the condition of the task with action `f` that
returned false. -/
def falsesOf (f : Nat) : List Event → Nat
  | [] => 0
  | Event.condReturned _ taskFunc _ r :: l =>
    (if taskFunc = some f ∧ r = false then 1 else 0) + falsesOf f l
  | _ :: l => falsesOf f l

/-- The example program's third task on a pool with one worker: each cycle
is the worker's seven statements from the loop head to the emplacement,
followed by a tick of the clock that makes the task due again. -/
def zeroCountCycle : List Action :=
  [Action.worker 0, Action.worker 0, Action.worker 0, Action.worker 0, Action.worker 0,
   Action.worker 0, Action.worker 0, Action.tick 1000]

/-- Four cycles with a true return, the fifth run with the false return, and
the worker going to wait on the empty queue. -/
def zeroCountSchedule : List Action :=
  zeroCountCycle ++ zeroCountCycle ++ zeroCountCycle ++ zeroCountCycle ++
    [Action.worker 0, Action.worker 0, Action.worker 0, Action.worker 0, Action.worker 0,
     Action.worker 0, Action.worker 0, Action.worker 0]

/-- The record of `zeroCountSchedule`, latest first. -/
def zeroCountLog : List Event :=
  [Event.condReturned 0 (some 7) 8 false, Event.ran 0 7,
   Event.popped 0 ⟨some 7, some 8, 4000, 0⟩ 4000,
   Event.requeued 0 ⟨some 7, some 8, 4000, 0⟩,
   Event.condReturned 0 (some 7) 8 true, Event.ran 0 7,
   Event.popped 0 ⟨some 7, some 8, 3000, 0⟩ 3000,
   Event.requeued 0 ⟨some 7, some 8, 3000, 0⟩,
   Event.condReturned 0 (some 7) 8 true, Event.ran 0 7,
   Event.popped 0 ⟨some 7, some 8, 2000, 0⟩ 2000,
   Event.requeued 0 ⟨some 7, some 8, 2000, 0⟩,
   Event.condReturned 0 (some 7) 8 true, Event.ran 0 7,
   Event.popped 0 ⟨some 7, some 8, 1000, 0⟩ 1000,
   Event.requeued 0 ⟨some 7, some 8, 1000, 0⟩,
   Event.condReturned 0 (some 7) 8 true, Event.ran 0 7,
   Event.popped 0 ⟨some 7, some 8, 0, 0⟩ 0,
   Event.submitted ⟨some 7, some 8, 0, 0⟩]

/-- The pool `zeroCountSchedule` ends in. -/
def zeroCountFinal : ThreadPool Nat :=
  { workers_ := [Pc.waitEmptyBlocked]
    taskQueue_ := []
    queueMutex_ := none
    stop_ := false
    clock := 4000
    world := 5
    log := zeroCountLog }

/-! ## A pool with one worker and one repeating task -/

/-- The state of the callables after `j` rounds of the action `f` followed
by the condition `c`, when nothing else touches it. -/
def worldAfter {σ : Type} (env : Callables σ) (f c : Nat) (world : σ) : Nat → σ
  | 0 => world
  | j + 1 => (env.cond c (env.act f (worldAfter env f c world j))).2

/-- What the call of the condition in round `j` returns. -/
def condAt {σ : Type} (env : Callables σ) (f c : Nat) (world : σ) (j : Nat) : Bool :=
  (env.cond c (env.act f (worldAfter env f c world j))).1

/-- The ticks from the clock reading `clock` until `due` (none when it is
past). -/
def untilDue (clock due : TimePoint) : Nat := (due - clock).toNat

/-- A full round of the only worker: its seven statements from the loop head
to the emplacement, then the clock advances by `d` ticks. -/
def soloCycle (d : Nat) : List Action :=
  [Action.worker 0, Action.worker 0, Action.worker 0, Action.worker 0, Action.worker 0,
   Action.worker 0, Action.worker 0, Action.tick d]

/-- The schedule, from clock reading `clock`, of `k` full rounds, each
followed by the ticks that make the task due again, and a last run up to the
call of the condition that ends it. -/
def soloSchedule (repeatMs : Int) : TimePoint → Nat → List Action
  | _, 0 =>
    [Action.worker 0, Action.worker 0, Action.worker 0, Action.worker 0, Action.worker 0]
  | clock, k + 1 =>
    soloCycle (untilDue clock (nextTime clock repeatMs)) ++
      soloSchedule repeatMs (clock + untilDue clock (nextTime clock repeatMs)) k

/-- The pool with one worker at the loop head and the one task pending. -/
def soloPool {σ : Type} (f c : Nat) (repeatMs : Int) (world : σ) (clock due : TimePoint)
    (log : List Event) : ThreadPool σ :=
  { workers_ := [Pc.loopHead]
    taskQueue_ := [⟨some f, some c, due, repeatMs⟩]
    queueMutex_ := none
    stop_ := false
    clock := clock
    world := world
    log := log }

/-! ## Pops and runs in the record -/

/-- The worker that recorded the event, if a worker did. -/
def Event.doer : Event → Option Nat
  | Event.popped w _ _ => some w
  | Event.ran w _ => some w
  | Event.condReturned w _ _ _ => some w
  | Event.requeued w _ => some w
  | Event.submitted _ => none
  | Event.stopRequested => none

/-- The latest event worker `i` recorded (the record is latest first). -/
def lastBy (i : Nat) (log : List Event) : Option Event :=
  log.find? (fun e => decide (e.doer = some i))

/-- In a record, every removal is of a task due at the clock reading of the
removal, and every call of an action is the next thing its worker records
after removing a task with that action, due at the reading of the removal. -/
def DueLog : List Event → Prop
  | [] => True
  | Event.popped _ t now :: l => t.nextRunTime ≤ now ∧ DueLog l
  | Event.ran w f :: l =>
    (∃ t now, lastBy w l = some (Event.popped w t now) ∧ t.func = some f ∧
      t.nextRunTime ≤ now) ∧ DueLog l
  | _ :: l => DueLog l

/-- A worker about to run holds empty locals, or what it holds is the task
it removed last, which was due at the reading of the removal. -/
def HeldDue {σ : Type} (p : ThreadPool σ) : Prop :=
  ∀ i taskFunc taskCond repeatMs,
    p.workers_[i]? = some (Pc.runTask taskFunc taskCond repeatMs) →
    taskFunc = none ∨
    ∃ t now, lastBy i p.log = some (Event.popped i t now) ∧ t.func = taskFunc ∧
      t.nextRunTime ≤ now

/-- The invariant of the record and of the workers about to run. -/
def DueInv {σ : Type} (p : ThreadPool σ) : Prop := DueLog p.log ∧ HeldDue p

/-! ## 64-bit results -/

theorem wrap64_of_inRange {x : Int} (h : InRange64 x) : wrap64 x = x := by
  unfold InRange64 at h
  unfold wrap64
  omega

theorem wrap64_inRange (x : Int) : InRange64 (wrap64 x) := by
  unfold InRange64 wrap64
  omega

/-! ## Facts about the vector operations -/

theorem set_perm_cons (xs : TaskQueue) (j : Nat) (b x : ScheduledTask)
    (h : xs[j]? = some b) : (b :: xs.set j x).Perm (x :: xs) := by
  induction xs generalizing j with
  | nil => simp at h
  | cons y ys ih =>
    cases j with
    | zero =>
      simp at h
      subst h
      exact List.Perm.swap _ _ _
    | succ j =>
      simp at h
      have h1 := ih j h
      exact (List.Perm.swap _ _ _).trans (((List.Perm.cons y h1)).trans (List.Perm.swap _ _ _))

theorem set_set_perm (xs : TaskQueue) (i j : Nat) (a b : ScheduledTask)
    (hi : xs[i]? = some a) (hj : xs[j]? = some b) : ((xs.set i b).set j a).Perm xs := by
  induction xs generalizing i j with
  | nil => simp at hi
  | cons y ys ih =>
    cases i with
    | zero =>
      cases j with
      | zero =>
        simp at hi hj
        subst hi
        simp
      | succ j =>
        simp at hi hj
        subst hi
        simpa using set_perm_cons ys j b y hj
    | succ i =>
      cases j with
      | zero =>
        simp at hi hj
        subst hj
        simpa using set_perm_cons ys i a y hi
      | succ j =>
        simp at hi hj
        simpa using ih i j hi hj

theorem swapAt_perm (v : TaskQueue) (i j : Nat) : (swapAt v i j).Perm v := by
  unfold swapAt
  split
  · next a b hi hj => exact set_set_perm v i j a b hi hj
  · exact List.Perm.refl _

theorem swapAt_length (v : TaskQueue) (i j : Nat) : (swapAt v i j).length = v.length :=
  (swapAt_perm v i j).length_eq

theorem swapAt_getElem? (v : TaskQueue) (i j k : Nat) (hi : i < v.length) (hj : j < v.length) :
    (swapAt v i j)[k]? = if k = j then v[i]? else if k = i then v[j]? else v[k]? := by
  unfold swapAt
  rw [List.getElem?_eq_getElem hi, List.getElem?_eq_getElem hj]
  simp only [List.getElem?_set, List.length_set]
  by_cases h1 : k = j
  · subst h1
    simp [hj]
  · by_cases h2 : k = i
    · subst h2
      have : ¬ j = k := fun h => h1 h.symm
      simp [this, h1, hi]
    · have h3 : ¬ j = k := fun h => h1 h.symm
      have h4 : ¬ i = k := fun h => h2 h.symm
      simp [h1, h2, h3, h4]

theorem keyAt_of_getElem? {v : TaskQueue} {i : Nat} {a : ScheduledTask}
    (h : v[i]? = some a) : keyAt v i = a.nextRunTime := by
  simp [keyAt, h]

theorem keyAt_swapAt (v : TaskQueue) (i j k : Nat) (hi : i < v.length) (hj : j < v.length) :
    keyAt (swapAt v i j) k
      = if k = j then keyAt v i else if k = i then keyAt v j else keyAt v k := by
  unfold keyAt
  rw [swapAt_getElem? v i j k hi hj]
  split_ifs <;> rfl

theorem TaskCompare_iff (a b : ScheduledTask) :
    TaskCompare a b = true ↔ b.nextRunTime < a.nextRunTime := by
  simp [TaskCompare]

theorem siftUp_length (fuel : Nat) (v : TaskQueue) (i : Nat) :
    (siftUp fuel v i).length = v.length := by
  induction fuel generalizing v i with
  | zero => rfl
  | succ fuel ih =>
    unfold siftUp
    split_ifs with h0
    · rfl
    · split
      · split_ifs
        · rw [ih, swapAt_length]
        · rfl
      · rfl

theorem siftUp_perm (fuel : Nat) (v : TaskQueue) (i : Nat) :
    (siftUp fuel v i).Perm v := by
  induction fuel generalizing v i with
  | zero => exact List.Perm.refl _
  | succ fuel ih =>
    unfold siftUp
    split_ifs with h0
    · exact List.Perm.refl _
    · split
      · split_ifs
        · exact (ih _ _).trans (swapAt_perm _ _ _)
        · exact List.Perm.refl _
      · exact List.Perm.refl _

theorem parent_lt {i : Nat} (h : i ≠ 0) : (i - 1) / 2 < i := by omega

theorem siftUp_heap (fuel : Nat) (v : TaskQueue) (i : Nat) (hi : i < v.length) (hf : i ≤ fuel)
    (P1 : ∀ k, k < v.length → k ≠ i → keyAt v ((k - 1) / 2) ≤ keyAt v k)
    (P2 : ∀ k, k < v.length → k ≠ 0 → (k - 1) / 2 = i → keyAt v ((i - 1) / 2) ≤ keyAt v k) :
    IsHeap (siftUp fuel v i) := by
  induction fuel generalizing v i with
  | zero =>
    have h0 : i = 0 := by omega
    subst h0
    intro k hk
    by_cases hk0 : k = 0
    · subst hk0; exact le_refl _
    · exact P1 k hk hk0
  | succ fuel ih =>
    unfold siftUp
    split_ifs with h0
    · subst h0
      intro k hk
      by_cases hk0 : k = 0
      · subst hk0; exact le_refl _
      · exact P1 k hk hk0
    · have hp : (i - 1) / 2 < i := parent_lt h0
      have hpl : (i - 1) / 2 < v.length := by omega
      rw [List.getElem?_eq_getElem hpl, List.getElem?_eq_getElem hi]
      simp only
      have ka : keyAt v ((i - 1) / 2) = (v[(i - 1) / 2]).nextRunTime :=
        keyAt_of_getElem? (List.getElem?_eq_getElem hpl)
      have kb : keyAt v i = (v[i]).nextRunTime := keyAt_of_getElem? (List.getElem?_eq_getElem hi)
      split_ifs with hc
      · rw [TaskCompare_iff] at hc
        rw [← ka, ← kb] at hc
        have hlen := swapAt_length v ((i - 1) / 2) i
        apply ih
        · rw [hlen]; exact hpl
        · omega
        · intro k hk hkp
          rw [hlen] at hk
          rw [keyAt_swapAt v _ _ _ hpl hi, keyAt_swapAt v _ _ _ hpl hi]
          by_cases hki : k = i
          · subst hki
            simp only [if_true, if_neg (Nat.ne_of_lt hp), if_true]
            exact le_of_lt hc
          · simp only [if_neg hki, if_neg hkp]
            have hk1 := P1 k hk hki
            by_cases hk0 : k = 0
            · subst hk0
              simp only [Nat.zero_sub, Nat.zero_div]
              rw [if_neg hki, if_neg hkp]
            · by_cases hpi : (k - 1) / 2 = i
              · simp only [hpi, if_true]
                exact P2 k hk hk0 hpi
              · simp only [if_neg hpi]
                by_cases hpp : (k - 1) / 2 = (i - 1) / 2
                · simp only [hpp, if_true]
                  rw [hpp] at hk1
                  exact le_trans (le_of_lt hc) hk1
                · simp only [if_neg hpp]
                  exact hk1
        · intro k hk hk0 hkp
          rw [hlen] at hk
          rw [keyAt_swapAt v _ _ _ hpl hi, keyAt_swapAt v _ _ _ hpl hi]
          have hpp : ((i - 1) / 2 - 1) / 2 ≤ (i - 1) / 2 := by omega
          have hne1 : ¬ ((i - 1) / 2 - 1) / 2 = i := by omega
          simp only [if_neg hne1]
          have hgp : keyAt v (((i - 1) / 2 - 1) / 2) ≤ keyAt v ((i - 1) / 2) :=
            P1 _ hpl (Nat.ne_of_lt hp)
          have hkne : ¬ k = (i - 1) / 2 := by omega
          by_cases hki : k = i
          · simp only [hki, if_true]
            split_ifs
            · exact le_of_lt hc
            · exact hgp
          · simp only [if_neg hki, if_neg hkne]
            have hk1 := P1 k hk hki
            rw [hkp] at hk1
            split_ifs
            · exact le_trans (le_of_lt hc) hk1
            · exact le_trans hgp hk1
      · rw [TaskCompare_iff] at hc
        rw [← ka, ← kb] at hc
        intro k hk
        by_cases hki : k = i
        · subst hki; exact not_lt.mp hc
        · exact P1 k hk hki

theorem firstChild_spec (v : TaskQueue) (n i : Nat) (hn : n ≤ v.length) (hc : 2 * i + 1 < n) :
    (firstChild v n i = 2 * i + 1 ∨ firstChild v n i = 2 * i + 2) ∧
    firstChild v n i < n ∧
    keyAt v (firstChild v n i) ≤ keyAt v (2 * i + 1) ∧
    (2 * i + 2 < n → keyAt v (firstChild v n i) ≤ keyAt v (2 * i + 2)) := by
  have hl : 2 * i + 1 < v.length := by omega
  unfold firstChild
  rw [List.getElem?_eq_getElem hl]
  by_cases hr : 2 * i + 2 < v.length
  · rw [List.getElem?_eq_getElem hr]
    simp only
    have kl : keyAt v (2 * i + 1) = (v[2 * i + 1]).nextRunTime :=
      keyAt_of_getElem? (List.getElem?_eq_getElem hl)
    have kr : keyAt v (2 * i + 2) = (v[2 * i + 2]).nextRunTime :=
      keyAt_of_getElem? (List.getElem?_eq_getElem hr)
    split_ifs with h
    · obtain ⟨h1, h2⟩ := h
      rw [TaskCompare_iff, ← kl, ← kr] at h2
      exact ⟨Or.inr rfl, h1, le_of_lt h2, fun _ => le_refl _⟩
    · refine ⟨Or.inl rfl, hc, le_refl _, fun h1 => ?_⟩
      have h2 : ¬ TaskCompare v[2 * i + 1] v[2 * i + 2] = true := fun h3 => h ⟨h1, h3⟩
      rw [TaskCompare_iff, ← kl, ← kr] at h2
      exact not_lt.mp h2
  · have hnone : v[2 * i + 2]? = none := List.getElem?_eq_none (by omega)
    rw [hnone]
    exact ⟨Or.inl rfl, hc, le_refl _, fun h1 => by omega⟩

theorem siftDown_length (fuel : Nat) (v : TaskQueue) (n i : Nat) :
    (siftDown fuel v n i).length = v.length := by
  induction fuel generalizing v i with
  | zero => rfl
  | succ fuel ih =>
    unfold siftDown
    split_ifs with h0
    · split
      · split_ifs
        · rw [ih, swapAt_length]
        · rfl
      · rfl
    · rfl

theorem siftDown_perm (fuel : Nat) (v : TaskQueue) (n i : Nat) :
    (siftDown fuel v n i).Perm v := by
  induction fuel generalizing v i with
  | zero => exact List.Perm.refl _
  | succ fuel ih =>
    unfold siftDown
    split_ifs with h0
    · split
      · split_ifs
        · exact (ih _ _).trans (swapAt_perm _ _ _)
        · exact List.Perm.refl _
      · exact List.Perm.refl _
    · exact List.Perm.refl _

/-- The downward loop on `[0, n)` leaves the positions from `n` on as they are. -/
theorem siftDown_getElem?_ge (fuel : Nat) (v : TaskQueue) (n i k : Nat)
    (hn : n ≤ v.length) (hi : i < n) (hk : n ≤ k) :
    (siftDown fuel v n i)[k]? = v[k]? := by
  induction fuel generalizing v i with
  | zero => rfl
  | succ fuel ih =>
    unfold siftDown
    split_ifs with h0
    · obtain ⟨_, hcn, _, _⟩ := firstChild_spec v n i hn h0
      split
      · split_ifs
        · rw [ih _ _ (by rw [swapAt_length]; exact hn) hcn,
            swapAt_getElem? v _ _ _ (by omega) (by omega)]
          rw [if_neg (by omega), if_neg (by omega)]
        · rfl
      · rfl
    · rfl

theorem siftDown_heap (fuel : Nat) (v : TaskQueue) (n i : Nat) (hn : n ≤ v.length)
    (hi : i < n) (hf : n ≤ fuel + i)
    (Q1 : ∀ k, k < n → (k - 1) / 2 ≠ i → keyAt v ((k - 1) / 2) ≤ keyAt v k)
    (Q2 : ∀ k, k < n → k ≠ 0 → (k - 1) / 2 = i → i ≠ 0 →
      keyAt v ((i - 1) / 2) ≤ keyAt v k) :
    HeapUpTo (siftDown fuel v n i) n := by
  induction fuel generalizing v i with
  | zero => omega
  | succ fuel ih =>
    unfold siftDown
    split_ifs with h0
    · obtain ⟨hcc, hcn, hcl, hcr⟩ := firstChild_spec v n i hn h0
      have hil : i < v.length := by omega
      have hcl2 : firstChild v n i < v.length := by omega
      rw [List.getElem?_eq_getElem hil, List.getElem?_eq_getElem hcl2]
      simp only
      have ka : keyAt v i = (v[i]).nextRunTime := keyAt_of_getElem? (List.getElem?_eq_getElem hil)
      have kc : keyAt v (firstChild v n i) = (v[firstChild v n i]).nextRunTime :=
        keyAt_of_getElem? (List.getElem?_eq_getElem hcl2)
      have hmin : ∀ k, k < n → k ≠ 0 → (k - 1) / 2 = i →
          keyAt v (firstChild v n i) ≤ keyAt v k := by
        intro k hk hk0 hkp
        have : k = 2 * i + 1 ∨ k = 2 * i + 2 := by omega
        rcases this with h | h
        · rw [h]; exact hcl
        · rw [h]; rw [h] at hk; exact hcr hk
      generalize hcdef : firstChild v n i = c at *
      have hci : i < c := by omega
      have hcp : (c - 1) / 2 = i := by omega
      split_ifs with hc
      · rw [TaskCompare_iff, ← ka, ← kc] at hc
        have hlen := swapAt_length v i c
        apply ih
        · rw [hlen]; exact hn
        · exact hcn
        · omega
        · intro k hk hkp
          rw [keyAt_swapAt v _ _ _ hil hcl2, keyAt_swapAt v _ _ _ hil hcl2]
          by_cases hk0 : k = 0
          · subst hk0
            simp only [Nat.zero_sub, Nat.zero_div]
            exact le_refl _
          · by_cases hkc : k = c
            · subst hkc
              rw [hcp]
              simp only [if_true, if_neg (Nat.ne_of_lt hci)]
              exact le_of_lt hc
            · have hpk : (k - 1) / 2 < k := parent_lt hk0
              simp only [if_neg hkc, if_neg hkp]
              by_cases hki : k = i
              · subst hki
                simp only [if_true]
                have : ¬ (k - 1) / 2 = k := by omega
                simp only [if_neg this]
                exact Q2 c hcn (by omega) hcp hk0
              · simp only [if_neg hki]
                by_cases hpi : (k - 1) / 2 = i
                · simp only [hpi, if_true]
                  exact hmin k hk hk0 hpi
                · simp only [if_neg hpi]
                  exact Q1 k hk hpi
        · intro k hk hk0 hkp _
          rw [keyAt_swapAt v _ _ _ hil hcl2, keyAt_swapAt v _ _ _ hil hcl2]
          rw [hcp]
          have hpk : (k - 1) / 2 < k := parent_lt hk0
          have h1 : ¬ i = c := by omega
          have h2 : ¬ k = c := by omega
          have h3 : ¬ k = i := by omega
          simp only [if_neg h1, if_true, if_neg h2, if_neg h3]
          have := Q1 k hk (by omega)
          rw [hkp] at this
          exact this
      · rw [TaskCompare_iff, ← ka, ← kc] at hc
        intro k hk
        by_cases hk0 : k = 0
        · subst hk0; exact le_refl _
        · by_cases hpi : (k - 1) / 2 = i
          · rw [hpi]
            exact le_trans (not_lt.mp hc) (hmin k hk hk0 hpi)
          · exact Q1 k hk hpi
    · intro k hk
      by_cases hk0 : k = 0
      · subst hk0; exact le_refl _
      · exact Q1 k hk (by omega)


theorem keyAt_append_left (v : TaskQueue) (t : ScheduledTask) (k : Nat) (hk : k < v.length) :
    keyAt (v ++ [t]) k = keyAt v k := by
  unfold keyAt
  rw [List.getElem?_append_left hk]

theorem emplace_isHeap (v : TaskQueue) (t : ScheduledTask) (h : IsHeap v) :
    IsHeap (v.emplace t) := by
  unfold TaskQueue.emplace pushHeap
  have hlen : (v ++ [t]).length = v.length + 1 := by simp
  rw [hlen]
  apply siftUp_heap
  · rw [hlen]; omega
  · omega
  · intro k hk hkn
    rw [hlen] at hk
    simp only [Nat.add_sub_cancel] at hkn
    have hk2 : k < v.length := by omega
    have hp : (k - 1) / 2 < v.length := by omega
    rw [keyAt_append_left v t k hk2, keyAt_append_left v t _ hp]
    exact h k hk2
  · intro k hk hk0 hkp
    rw [hlen] at hk
    simp only [Nat.add_sub_cancel] at hkp
    omega

theorem emplace_perm (v : TaskQueue) (t : ScheduledTask) : (v.emplace t).Perm (t :: v) := by
  unfold TaskQueue.emplace pushHeap
  exact (siftUp_perm _ _ _).trans (List.perm_append_singleton t v)

theorem popHeap_length (v : TaskQueue) : (popHeap v).length = v.length := by
  unfold popHeap
  split_ifs
  · rw [siftDown_length, swapAt_length]
  · rfl

theorem popHeap_perm (v : TaskQueue) : (popHeap v).Perm v := by
  unfold popHeap
  split_ifs
  · exact (siftDown_perm _ _ _ _).trans (swapAt_perm _ _ _)
  · exact List.Perm.refl _

theorem popHeap_heapUpTo (v : TaskQueue) (h : IsHeap v) :
    HeapUpTo (popHeap v) (v.length - 1) := by
  unfold popHeap
  split_ifs with h1
  · have h0 : 0 < v.length := by omega
    have hl : v.length - 1 < v.length := by omega
    apply siftDown_heap
    · rw [swapAt_length]; omega
    · omega
    · omega
    · intro k hk hkp
      have hk0 : k ≠ 0 := by
        intro hk0
        subst hk0
        exact hkp rfl
      rw [keyAt_swapAt v _ _ _ h0 hl, keyAt_swapAt v _ _ _ h0 hl]
      rw [if_neg (by omega), if_neg hkp, if_neg (by omega), if_neg hk0]
      exact h k (by omega)
    · intro k _ _ _ hne
      exact absurd rfl hne
  · intro k hk
    have : k = 0 := by omega
    subst this
    exact le_refl _

theorem pop_isHeap (v : TaskQueue) (h : IsHeap v) : IsHeap v.pop := by
  unfold TaskQueue.pop
  intro k hk
  rw [List.length_dropLast, popHeap_length] at hk
  have hkey : ∀ j, j < v.length - 1 → keyAt (popHeap v).dropLast j = keyAt (popHeap v) j := by
    intro j hj
    unfold keyAt
    rw [List.getElem?_dropLast, popHeap_length, if_pos hj]
  rw [hkey k hk, hkey _ (by omega)]
  exact popHeap_heapUpTo v h k hk

theorem popHeap_getLast? (v : TaskQueue) : (popHeap v).getLast? = v.head? := by
  rw [List.getLast?_eq_getElem?, popHeap_length]
  unfold popHeap
  split_ifs with h1
  · have h0 : 0 < v.length := by omega
    have hl : v.length - 1 < v.length := by omega
    rw [siftDown_getElem?_ge _ _ _ _ _ (by rw [swapAt_length]; omega) (by omega) (le_refl _),
      swapAt_getElem? v _ _ _ h0 hl, if_pos rfl]
    cases v with
    | nil => simp at h0
    | cons a as => simp
  · cases v with
    | nil => simp
    | cons a as =>
      cases as with
      | nil => simp
      | cons b bs => simp at h1

theorem pop_perm (v : TaskQueue) (t : ScheduledTask) (h : v.top = some t) :
    v.Perm (t :: v.pop) := by
  unfold TaskQueue.top at h
  unfold TaskQueue.pop
  have h1 : (popHeap v).getLast? = some t := by rw [popHeap_getLast?, h]
  have h2 := List.dropLast_append_getLast? t h1
  have h3 : (popHeap v).Perm (t :: (popHeap v).dropLast) := by
    have := List.perm_append_singleton t (popHeap v).dropLast
    rw [h2] at this
    exact this
  exact (popHeap_perm v).symm.trans h3

theorem heap_root_le (v : TaskQueue) (h : IsHeap v) (k : Nat) (hk : k < v.length) :
    keyAt v 0 ≤ keyAt v k := by
  induction k using Nat.strong_induction_on with
  | _ k ih =>
    by_cases hk0 : k = 0
    · subst hk0; exact le_refl _
    · exact le_trans (ih ((k - 1) / 2) (parent_lt hk0) (by omega)) (h k hk)

theorem top_le_all (v : TaskQueue) (h : IsHeap v) (t : ScheduledTask) (ht : v.top = some t)
    (u : ScheduledTask) (hu : u ∈ v) : t.nextRunTime ≤ u.nextRunTime := by
  obtain ⟨k, hk, hku⟩ := List.getElem_of_mem hu
  have h0 : v[0]? = some t := by
    unfold TaskQueue.top at ht
    cases v with
    | nil => simp at ht
    | cons a as => simpa using ht
  have h1 := heap_root_le v h k hk
  rw [keyAt_of_getElem? h0, keyAt_of_getElem? (a := u) (by rw [List.getElem?_eq_getElem hk, hku])] at h1
  exact h1


/-! ## The re-insertion decision -/

theorem executeTask_requeued {σ : Type} (env : Callables σ) (i : Nat) (stop_ : Bool)
    (now : TimePoint) (taskFunc taskCond : Option Nat) (repeatMs : Int) (world : σ)
    (t : ScheduledTask)
    (h : (executeTask env i stop_ now taskFunc taskCond repeatMs world).requeued = some t) :
    stop_ = false ∧ (0 < repeatMs ∨ repeatMs = 0) ∧
      t = ⟨taskFunc, taskCond, nextTime now repeatMs, repeatMs⟩ := by
  unfold executeTask repeats at h
  cases stop_ <;> cases taskCond with
  | none =>
    by_cases h1 : 0 < repeatMs <;> by_cases h2 : repeatMs = 0 <;> simp [h1, h2] at h ⊢
    all_goals exact h.symm
  | some c =>
    by_cases h1 : 0 < repeatMs <;> by_cases h2 : repeatMs = 0 <;>
      cases h3 : (env.cond c (callFunc env taskFunc world)).1 <;> simp [h1, h2, h3] at h ⊢
    all_goals exact h.symm

/-- C1. A worker that has just executed a task emplaces it again exactly when
the stop flag read after the execution is false and either the interval is
positive and there is no condition, or the interval is positive or zero and
the condition, called after the action, returns true; the emplaced task
keeps action, condition and interval.  A task with interval zero and no
condition is not emplaced again, and nothing is when the flag is true. -/
theorem reinsertion_decision {σ : Type} (env : Callables σ) (i : Nat) (stop_ : Bool)
    (now : TimePoint) (taskFunc taskCond : Option Nat) (repeatMs : Int) (world : σ) :
    ((executeTask env i stop_ now taskFunc taskCond repeatMs world).requeued.isSome = true ↔
      stop_ = false ∧
        ((0 < repeatMs ∧ taskCond = none) ∨
         (0 < repeatMs ∧ ∃ c, taskCond = some c ∧
            (env.cond c (callFunc env taskFunc world)).1 = true) ∨
         (repeatMs = 0 ∧ ∃ c, taskCond = some c ∧
            (env.cond c (callFunc env taskFunc world)).1 = true))) ∧
    (∀ t, (executeTask env i stop_ now taskFunc taskCond repeatMs world).requeued = some t →
      t = ⟨taskFunc, taskCond, nextTime now repeatMs, repeatMs⟩) ∧
    (repeatMs = 0 → taskCond = none →
      (executeTask env i stop_ now taskFunc taskCond repeatMs world).requeued = none) ∧
    (stop_ = true →
      (executeTask env i stop_ now taskFunc taskCond repeatMs world).requeued = none) := by
  unfold executeTask repeats
  cases stop_ <;> cases taskCond with
  | none =>
    by_cases h1 : 0 < repeatMs <;> by_cases h2 : repeatMs = 0 <;> simp [h1, h2]
  | some c =>
    by_cases h1 : 0 < repeatMs <;> by_cases h2 : repeatMs = 0 <;>
      cases h3 : (env.cond c (callFunc env taskFunc world)).1 <;> simp [h1, h2, h3]

/-! ## Submission -/

/-- A submission whose due time does not fit: at clock reading 1000, with
the largest delay a `steady_clock::duration` holds, the 64-bit sum of line 28
is negative, and the task is stored with that due time, not with
`now + delay` (claim C5 fails here). -/
theorem scheduleOnce_wraps :
    (scheduleOnce (ThreadPool.create 1 1000 (0 : Nat)) 1000 (some 7) 9223372036854775807).taskQueue_
      = [⟨some 7, none, -9223372036854774809, 0⟩] ∧
    (-9223372036854774809 : Int) ≠ 1000 + 9223372036854775807 := by
  decide

/-- C5, amended. The call `scheduleOnce(action, delay)` with a non-empty
action, made at clock reading `now` with `now + delay` within the 64-bit
range of the clock, adds exactly one task to the pending ones, due at
`now + delay`, without condition and with interval zero; the tasks pending
before are all kept, the rest of the pool is untouched, and the result is
that of `scheduleRepeating(action, delay, 0, nullptr)` at the same reading. -/
theorem scheduleOnce_post {σ : Type} (p : ThreadPool σ) (now : TimePoint) (f : Nat) (delay : Int)
    (hfit : InRange64 (now + delay)) :
    (scheduleOnce p now (some f) delay).taskQueue_.Perm
        (⟨some f, none, now + delay, 0⟩ :: p.taskQueue_) ∧
    (scheduleOnce p now (some f) delay).taskQueue_.length = p.taskQueue_.length + 1 ∧
    (scheduleOnce p now (some f) delay).taskQueue_
        = (scheduleRepeating p now (some f) delay 0 none).taskQueue_ ∧
    (scheduleOnce p now (some f) delay).workers_ = p.workers_ ∧
    (scheduleOnce p now (some f) delay).stop_ = p.stop_ ∧
    (scheduleOnce p now (some f) delay).world = p.world := by
  have hq : (scheduleOnce p now (some f) delay).taskQueue_
      = p.taskQueue_.emplace ⟨some f, none, now + delay, 0⟩ := by
    show p.taskQueue_.emplace ⟨some f, none, wrap64 (now + delay), 0⟩ = _
    rw [wrap64_of_inRange hfit]
  refine ⟨?_, ?_, rfl, rfl, rfl, rfl⟩
  · rw [hq]; exact emplace_perm _ _
  · rw [hq]; exact (emplace_perm p.taskQueue_ _).length_eq

theorem scheduleOnce_post_witness :
    (scheduleOnce (ThreadPool.create 1 1000 (0 : Nat)) 1000 (some 7) 500).taskQueue_.Perm
      [⟨some 7, none, 1000 + 500, 0⟩] :=
  (scheduleOnce_post (ThreadPool.create 1 1000 (0 : Nat)) 1000 7 500 (by decide)).1

/-- C6. With an empty action, `scheduleOnce` and `scheduleRepeating` return
without touching the pool, whatever the delay, interval and condition, and
whoever holds the mutex: the pending tasks, the stop flag and all the rest
are as before. -/
theorem empty_action_noop {σ : Type} (env : Callables σ) (p : ThreadPool σ) (now : TimePoint)
    (delay interval : Int) (condition : Option Nat) (hnow : now ≤ p.clock) :
    scheduleOnce p now none delay = p ∧
    scheduleRepeating p now none delay interval condition = p ∧
    step env (Action.scheduleOnce now none delay) p = some p ∧
    step env (Action.scheduleRepeating now none delay interval condition) p = some p := by
  refine ⟨rfl, rfl, ?_, ?_⟩
  · simp [step, hnow, scheduleOnce]
  · simp [step, hnow, scheduleRepeating]

theorem empty_action_noop_witness :
    scheduleOnce (ThreadPool.create 2 0 (0 : Nat)) 0 none 5 = ThreadPool.create 2 0 0 ∧
    scheduleRepeating (ThreadPool.create 2 0 (0 : Nat)) 0 none 5 100 (some 8) = ThreadPool.create 2 0 0 :=
  have h := empty_action_noop zeroCountEnv (ThreadPool.create 2 0 0) 0 5 100 (some 8) (by decide)
  ⟨h.1, h.2.1⟩

/-! ## The locked block -/

theorem lockedSection_ready {now : TimePoint} {q : TaskQueue} {top : ScheduledTask}
    {rest : TaskQueue} (h : lockedSection now q = Locked.ready top rest) :
    q.top = some top ∧ top.nextRunTime ≤ now ∧ rest = q.pop := by
  unfold lockedSection at h
  split_ifs at h
  split at h
  · cases h
  · next t ht =>
    split_ifs at h with h1
    cases h
    exact ⟨ht, not_lt.mp h1, rfl⟩

theorem lockedSection_notDue {now : TimePoint} {q : TaskQueue} {top : ScheduledTask}
    (ht : q.top = some top) (h : now < top.nextRunTime) :
    lockedSection now q
      = Locked.timedWait (wrap64 (now + wrap64 (top.nextRunTime - now))) := by
  unfold lockedSection
  have he : q.empty = false := by
    cases q with
    | nil => simp [TaskQueue.top] at ht
    | cons a as => rfl
  simp [he, ht, h]

theorem lt_length_of_getElem? {α : Type} {l : List α} {i : Nat} {a : α}
    (h : l[i]? = some a) : i < l.length := by
  by_contra hn
  rw [List.getElem?_eq_none (not_lt.mp hn)] at h
  cases h

theorem workers_set_self {l : List Pc} {i : Nat} {pc pc' : Pc} (h : l[i]? = some pc) :
    (l.set i pc')[i]? = some pc' := by
  rw [List.getElem?_set, if_pos rfl, if_pos (lt_length_of_getElem? h)]

theorem workers_set_other {l : List Pc} {i j : Nat} {pc' : Pc} (h : i ≠ j) :
    (l.set i pc')[j]? = l[j]? := by
  rw [List.getElem?_set, if_neg h]

/-! ## The condition -/

/-- A run after which the stop flag is read true: the action has been
called, the condition is not (claim C9 fails here). -/
theorem cond_skipped_when_stopped :
    (executeTask zeroCountEnv 0 true 0 (some 7) (some 8) 0 0).log = [Event.ran 0 7] ∧
    condCalls (executeTask zeroCountEnv 0 true 0 (some 7) (some 8) 0 0).log ≠ 1 := by
  decide

/-- C9, amended. For a task with a condition and a non-negative interval:
when the stop flag read after the run is false, the condition is called
exactly once, on the state the action has left, after the action and before
the task is emplaced again, and the task is emplaced again exactly when the
call returns true; when the flag is true the condition is not called. -/
theorem cond_called_once {σ : Type} (env : Callables σ) (i : Nat) (stop_ : Bool)
    (now : TimePoint) (taskFunc : Option Nat) (c : Nat) (repeatMs : Int) (world : σ)
    (hms : 0 ≤ repeatMs) :
    (stop_ = false →
      condCalls (executeTask env i stop_ now taskFunc (some c) repeatMs world).log = 1 ∧
      (executeTask env i stop_ now taskFunc (some c) repeatMs world).log =
        (if (env.cond c (callFunc env taskFunc world)).1 then
          [Event.requeued i ⟨taskFunc, some c, nextTime now repeatMs, repeatMs⟩]
         else []) ++
        Event.condReturned i taskFunc c (env.cond c (callFunc env taskFunc world)).1 ::
          ranLog i taskFunc ∧
      (executeTask env i stop_ now taskFunc (some c) repeatMs world).requeued.isSome
        = (env.cond c (callFunc env taskFunc world)).1) ∧
    (stop_ = true →
      condCalls (executeTask env i stop_ now taskFunc (some c) repeatMs world).log = 0) := by
  have hcr : ∀ f, condCalls (ranLog i f) = 0 := by
    intro f
    cases f <;> rfl
  have hrep : repeats repeatMs (some c) = true := by
    unfold repeats
    by_cases h : 0 < repeatMs
    · simp [h]
    · have : repeatMs = 0 := by omega
      simp [this]
  constructor
  · intro hs
    subst hs
    unfold executeTask
    simp only [hrep, Bool.false_eq_true, if_false, if_true]
    cases h : (env.cond c (callFunc env taskFunc world)).1
    · simp [condCalls, hcr]
    · simp [condCalls, hcr]
  · intro hs
    subst hs
    unfold executeTask
    simp [hcr]

theorem cond_called_once_witness :
    condCalls (executeTask zeroCountEnv 0 false 0 (some 7) (some 8) 0 0).log = 1 :=
  ((cond_called_once zeroCountEnv 0 false 0 (some 7) 8 0 0 (le_refl 0)).1 rfl).1

/-! ## The due time of a task emplaced again -/

/-- An interval whose count of nanoseconds does not fit: a task with
interval 9223372036855 ms, popped and run at clock reading 0, is emplaced
again with a negative due time, earlier than the due time it was popped with
and different from `now + interval` (claim C10 fails here). -/
theorem requeue_wraps_into_past :
    lockedSection 0 [⟨some 7, none, 0, 9223372036855⟩]
      = Locked.ready ⟨some 7, none, 0, 9223372036855⟩ [] ∧
    (executeTask zeroCountEnv 0 false 0 (some 7) none 9223372036855 0).requeued
      = some ⟨some 7, none, -9223372036854551616, 9223372036855⟩ ∧
    ¬ ((0 : Int) < -9223372036854551616) ∧
    (-9223372036854551616 : Int) ≠ 0 + 9223372036855 * 1000000 := by
  decide

/-- C10, amended. When a worker emplaces a task again and the interval in
nanoseconds and its sum with the clock reading `now` of line 127 are within
the 64-bit range of the clock, the new due time is `now` plus one microsecond
for interval zero, and `now` plus the interval otherwise.  With a clock that
does not go back between the reading at the pop and `now`, the new due time
is later than the due time the task was popped with, and for a positive
interval it is at least the interval after the reading at the pop. -/
theorem requeue_due_time {σ : Type} (env : Callables σ) (i : Nat) (stop_ : Bool)
    (nowPop now : TimePoint) (q rest : TaskQueue) (top t : ScheduledTask) (world : σ)
    (hpop : lockedSection nowPop q = Locked.ready top rest)
    (hmono : nowPop ≤ now)
    (hre : (executeTask env i stop_ now top.func top.condition top.repeatInterval world).requeued
      = some t)
    (hfitMs : InRange64 (top.repeatInterval * 1000000))
    (hfit : InRange64 (now + (if top.repeatInterval = 0 then 1000
      else top.repeatInterval * 1000000))) :
    t.nextRunTime = (if top.repeatInterval = 0 then now + 1000
      else now + top.repeatInterval * 1000000) ∧
    top.nextRunTime < t.nextRunTime ∧
    (0 < top.repeatInterval → nowPop + top.repeatInterval * 1000000 ≤ t.nextRunTime) := by
  obtain ⟨_, hdue, _⟩ := lockedSection_ready hpop
  obtain ⟨_, hms, ht⟩ :=
    executeTask_requeued env i stop_ now top.func top.condition top.repeatInterval world t hre
  have hnext : t.nextRunTime = nextTime now top.repeatInterval := by rw [ht]
  rw [hnext]
  simp only [nextTime, microsecond, millisecond]
  rcases hms with h | h
  · have hne : ¬ top.repeatInterval = 0 := by omega
    simp only [if_neg hne] at hfit ⊢
    rw [wrap64_of_inRange hfitMs, wrap64_of_inRange hfit]
    refine ⟨rfl, by linarith, fun _ => by linarith⟩
  · simp only [if_pos h] at hfit ⊢
    have h1000 : wrap64 (1 * 1000) = 1000 := by decide
    rw [h1000, wrap64_of_inRange hfit]
    refine ⟨rfl, by linarith, fun h2 => by omega⟩

theorem requeue_due_time_witness :
    (100 : Int) < 500500000 ∧ (400000 : Int) + 500 * 1000000 ≤ 500500000 :=
  have h := requeue_due_time zeroCountEnv 0 false 400000 500000
    [⟨some 7, none, 100, 500⟩] [] ⟨some 7, none, 100, 500⟩ ⟨some 7, none, 500500000, 500⟩ 0
    (by decide) (by decide) (by decide) (by decide) (by decide)
  ⟨h.2.1, h.2.2 (by decide)⟩

/-! ## The predicate of the timed wait -/

/-- The third disjunct of the predicate of `cv_.wait_for` compares the
front of the queue with itself: the predicate is `stop || empty`. -/
theorem timedWaitPred_eq (stop_ : Bool) (q : TaskQueue) :
    timedWaitPred stop_ q = (stop_ || q.empty) := by
  unfold timedWaitPred derefTop TaskQueue.top
  cases q with
  | nil => simp
  | cons a as => simp

/-- C7, on the code. A worker is blocked in `cv_.wait_for` on a task due
after one second; a task due after one microsecond is emplaced and the worker
is woken.  The urgent task is then the front of the queue, the predicate
evaluates to false, and the worker is blocked again until the old deadline:
when the urgent task is due, the worker still cannot leave the wait. -/
theorem urgent_task_not_woken :
    (run zeroCountEnv blockedOnFar (ThreadPool.create 1 0 0)).map
        (fun p => (p.workers_, p.taskQueue_.map (fun t => t.nextRunTime), p.world))
      = some ([Pc.timedBlocked 1000000000], [1000000000], 1) ∧
    (run zeroCountEnv (blockedOnFar ++ [Action.scheduleOnce 0 (some 2) 1000, Action.wake 0])
        (ThreadPool.create 1 0 0)).map
        (fun p => (p.workers_, p.taskQueue_.map (fun t => t.nextRunTime),
          timedWaitPred p.stop_ p.taskQueue_))
      = some ([Pc.timedPred 1000000000], [1000, 1000000000], false) ∧
    (run zeroCountEnv (blockedOnFar ++ urgentArrives) (ThreadPool.create 1 0 0)).map
        (fun p => (p.workers_, p.taskQueue_.map (fun t => t.nextRunTime)))
      = some ([Pc.timedBlocked 1000000000], [1000, 1000000000]) ∧
    (run zeroCountEnv (blockedOnFar ++ urgentArrives ++ [Action.tick 1000, Action.worker 0])
        (ThreadPool.create 1 0 0)).isNone = true := by
  decide

/-! ## The run of a task, step by step -/

theorem goto_goto {σ : Type} (p : ThreadPool σ) (i : Nat) (a b : Pc) :
    (p.goto i a).goto i b = p.goto i b := by
  simp [ThreadPool.goto, List.set_set]

/-- Lines 107-143 in one piece are what the worker's steps do when no other
thread moves in between: from line 108 the worker reaches the loop head, the
state of the callables and the record are those of `executeTask` at the
stop flag and clock of the moment, and the queue has the task emplaced again
exactly when `executeTask` says so. -/
theorem executeTask_matches_steps {σ : Type} (env : Callables σ) (i : Nat) (p : ThreadPool σ)
    (taskFunc taskCond : Option Nat) (repeatMs : Int)
    (hpc : p.workers_[i]? = some (Pc.runTask taskFunc taskCond repeatMs))
    (hm : p.queueMutex_ = none) :
    ∃ q, finishIteration env i 5 p = some q ∧
      q.workers_ = p.workers_.set i Pc.loopHead ∧
      q.world = (executeTask env i p.stop_ p.clock taskFunc taskCond repeatMs p.world).world ∧
      q.log = (executeTask env i p.stop_ p.clock taskFunc taskCond repeatMs p.world).log
        ++ p.log ∧
      q.taskQueue_ =
        (match (executeTask env i p.stop_ p.clock taskFunc taskCond repeatMs p.world).requeued
          with
         | some t => p.taskQueue_.emplace t
         | none => p.taskQueue_) := by
  have hlen := lt_length_of_getElem? hpc
  cases taskFunc <;> cases hs : p.stop_ <;> cases hr : repeats repeatMs taskCond <;>
    cases taskCond <;>
    simp [finishIteration, step, workerThread, hpc, hs, hr, hm, executeTask, callFunc, ranLog,
      ThreadPool.goto, hlen, List.set_set]
  case none.false.true.some c =>
    cases hk : (env.cond c p.world).1 <;>
      simp [finishIteration, step, workerThread, hpc, hs, hr, hm, executeTask, callFunc, ranLog,
        ThreadPool.goto, hlen, List.set_set, hk]
  case some.false.true.some g c =>
    cases hk : (env.cond c (env.act g p.world)).1 <;>
      simp [finishIteration, step, workerThread, hpc, hs, hr, hm, executeTask, callFunc, ranLog,
        ThreadPool.goto, hlen, List.set_set, hk]

/-! ## Steps and the queue -/

/-- A step leaves the queue as it is, pops it, or emplaces one task. -/
theorem step_queue {σ : Type} (env : Callables σ) (a : Action) (p p' : ThreadPool σ)
    (h : step env a p = some p') :
    p'.taskQueue_ = p.taskQueue_ ∨
    (∃ top, p.taskQueue_.top = some top ∧ p'.taskQueue_ = p.taskQueue_.pop) ∨
    ∃ t, p'.taskQueue_ = p.taskQueue_.emplace t := by
  cases a with
  | worker i =>
    simp only [step] at h
    cases hw : p.workers_[i]? with
    | none => simp [hw] at h
    | some pc =>
      rw [hw] at h
      simp only at h
      cases pc <;> simp only [workerThread] at h
      case lockQueue =>
        split_ifs at h
        split at h
        · cases h; exact Or.inl rfl
        · cases h; exact Or.inl rfl
        · rename_i top rest hls
          obtain ⟨h1, _, h3⟩ := lockedSection_ready hls
          cases h
          exact Or.inr (Or.inl ⟨top, h1, h3⟩)
      case requeue f c nt ms =>
        split_ifs at h
        cases h
        exact Or.inr (Or.inr ⟨_, rfl⟩)
      case runTask f c ms =>
        cases f <;> cases h <;> exact Or.inl rfl
      case checkStop f c ms =>
        split_ifs at h
        · cases h; exact Or.inl rfl
        · cases c <;> cases h <;> exact Or.inl rfl
        · cases h; exact Or.inl rfl
      all_goals
        first
        | (cases h; exact Or.inl rfl)
        | cases h
        | (split_ifs at h <;> cases h <;> exact Or.inl rfl)
  | wake i =>
    simp only [step] at h
    cases hw : p.workers_[i]? with
    | none => simp [hw] at h
    | some pc =>
      rw [hw] at h
      simp only [wakeStep] at h
      split_ifs at h
      cases pc <;> cases h <;> exact Or.inl rfl
  | tick d => cases h; exact Or.inl rfl
  | requestStop =>
    simp only [step] at h
    split_ifs at h
    cases h
    exact Or.inl rfl
  | scheduleOnce now func delay =>
    simp only [step] at h
    split_ifs at h
    cases h
    cases func
    · exact Or.inl rfl
    · exact Or.inr (Or.inr ⟨_, rfl⟩)
  | scheduleRepeating now func delay interval condition =>
    simp only [step] at h
    split_ifs at h
    cases h
    cases func
    · exact Or.inl rfl
    · exact Or.inr (Or.inr ⟨_, rfl⟩)

theorem step_isHeap {σ : Type} (env : Callables σ) (a : Action) (p p' : ThreadPool σ)
    (h : step env a p = some p') (hp : IsHeap p.taskQueue_) : IsHeap p'.taskQueue_ := by
  rcases step_queue env a p p' h with h1 | ⟨_, _, h1⟩ | ⟨t, h1⟩
  · rw [h1]; exact hp
  · rw [h1]; exact pop_isHeap _ hp
  · rw [h1]; exact emplace_isHeap _ _ hp

theorem run_isHeap {σ : Type} (env : Callables σ) (as : List Action) (p p' : ThreadPool σ)
    (h : run env as p = some p') (hp : IsHeap p.taskQueue_) : IsHeap p'.taskQueue_ := by
  induction as generalizing p with
  | nil =>
    simp only [run, Option.some.injEq] at h
    subst h
    exact hp
  | cons a as ih =>
    simp only [run] at h
    cases hs : step env a p with
    | none => simp [hs] at h
    | some q =>
      rw [hs] at h
      exact ih q h (step_isHeap env a p q hs hp)

theorem isHeap_nil : IsHeap [] := by
  intro i hi
  simp at hi

/-- C3. In every state the pool reaches from its construction, whatever the
submissions and removals so far, the task `top()` returns is due no later
than any pending task, and `pop()` removes exactly that task: the pending
tasks are the popped one together with those left in the queue. -/
theorem top_is_earliest {σ : Type} (env : Callables σ) (numThreads : Nat) (clock : TimePoint)
    (world : σ) (as : List Action) (p : ThreadPool σ) (top : ScheduledTask)
    (hrun : run env as (ThreadPool.create numThreads clock world) = some p)
    (htop : p.taskQueue_.top = some top) :
    (∀ u ∈ p.taskQueue_, top.nextRunTime ≤ u.nextRunTime) ∧
    p.taskQueue_.Perm (top :: p.taskQueue_.pop) ∧
    p.taskQueue_.pop.length + 1 = p.taskQueue_.length := by
  have hheap : IsHeap p.taskQueue_ := run_isHeap env as _ p hrun isHeap_nil
  refine ⟨fun u hu => top_le_all _ hheap top htop u hu, pop_perm _ _ htop, ?_⟩
  exact (pop_perm _ _ htop).length_eq.symm

theorem top_is_earliest_witness :
    (⟨some 2, none, 100, 0⟩ : ScheduledTask).nextRunTime
      ≤ (⟨some 3, none, 300, 0⟩ : ScheduledTask).nextRunTime ∧
    threePending.taskQueue_.pop.length + 1 = threePending.taskQueue_.length :=
  have h := top_is_earliest zeroCountEnv 1 0 0 threeSubmissions threePending
    ⟨some 2, none, 100, 0⟩ (by rfl) (by rfl)
  ⟨h.1 ⟨some 3, none, 300, 0⟩ (by decide), h.2.2⟩

/-! ## The events since the stop request -/

theorem stopBound_zero (pc : Pc) : stopBound pc 0 0 := by
  cases pc <;> simp [stopBound]

theorem sinceStop_append {evs l : List Event} (he : Event.stopRequested ∉ evs)
    (hl : Event.stopRequested ∈ l) : sinceStop (evs ++ l) = evs ++ sinceStop l := by
  induction evs with
  | nil => rfl
  | cons e es ih =>
    have h1 : e ≠ Event.stopRequested := fun h => he (by simp [h])
    have h2 : Event.stopRequested ∉ es := fun h => he (by simp [h])
    have h3 : Event.stopRequested ∈ es ++ l := List.mem_append_right _ hl
    rw [List.cons_append]
    simp only [sinceStop]
    rw [if_neg h1, if_pos h3, ih h2, List.cons_append]

theorem popsBy_append (j : Nat) (l1 l2 : List Event) :
    popsBy j (l1 ++ l2) = popsBy j l1 + popsBy j l2 := by
  induction l1 with
  | nil => simp [popsBy]
  | cons e es ih =>
    rw [List.cons_append]
    cases e <;> simp only [popsBy] <;> rw [ih]
    all_goals omega

theorem runsBy_append (j : Nat) (l1 l2 : List Event) :
    runsBy j (l1 ++ l2) = runsBy j l1 + runsBy j l2 := by
  induction l1 with
  | nil => simp [runsBy]
  | cons e es ih =>
    rw [List.cons_append]
    cases e <;> simp only [runsBy] <;> rw [ih]
    all_goals omega

/-- The invariant after a move of worker `i` from `pc` to `pc'` that records
`evs`. -/
theorem stopInv_move {σ : Type} {p q : ThreadPool σ} (i : Nat) (evs : List Event) {pc pc' : Pc}
    (hpc : p.workers_[i]? = some pc) (hinv : StopInv p)
    (hw : q.workers_ = p.workers_.set i pc') (hs : q.stop_ = p.stop_)
    (hl : q.log = evs ++ p.log)
    (hne : Event.stopRequested ∉ evs)
    (hothers : ∀ j, j ≠ i → popsBy j evs = 0 ∧ runsBy j evs = 0)
    (hself : p.stop_ = true → ∀ P R, stopBound pc P R →
      stopBound pc' (popsBy i evs + P) (runsBy i evs + R)) : StopInv q := by
  obtain ⟨hmem, hb⟩ := hinv
  constructor
  · rw [hs, hl, hmem]
    simp [hne]
  · intro hstop j pcj hj
    rw [hs] at hstop
    have hin := hmem.mp hstop
    rw [hl, sinceStop_append hne hin, popsBy_append, runsBy_append]
    rw [hw] at hj
    by_cases hji : j = i
    · subst hji
      rw [workers_set_self hpc] at hj
      cases hj
      exact hself hstop _ _ (hb hstop j pc hpc)
    · rw [workers_set_other (fun h => hji h.symm)] at hj
      rw [(hothers j hji).1, (hothers j hji).2, Nat.zero_add, Nat.zero_add]
      exact hb hstop j pcj hj

theorem workerThread_stopInv {σ : Type} (env : Callables σ) (i : Nat) (pc : Pc) (p p' : ThreadPool σ)
    (hpc : p.workers_[i]? = some pc)
    (h : workerThread env i pc p = some p') (hinv : StopInv p) : StopInv p' := by
  cases pc <;> simp only [workerThread] at h
  case evalCond f c ms =>
    cases h
    refine stopInv_move i [_] hpc hinv rfl rfl rfl (by simp) ?_ ?_
    · intro j hj
      simp [popsBy, runsBy]
    · intro hs P R hb
      cases hk : (env.cond c p.world).1 <;> simp_all [stopBound, popsBy, runsBy]
  all_goals (try split_ifs at h)
  all_goals (try split at h)
  all_goals (try cases h)
  all_goals
    first
    | (refine stopInv_move i [] hpc hinv rfl rfl rfl (by simp) ?_ ?_
       · intro j hj
         simp [popsBy, runsBy]
       · intro hs P R hb
         simp_all [stopBound, popsBy, runsBy, waitPred, timedWaitPred])
    | (refine stopInv_move i [_] hpc hinv rfl rfl rfl (by simp) ?_ ?_
       · intro j hj
         simp [popsBy, runsBy, Ne.symm hj]
       · intro hs P R hb
         simp_all [stopBound, popsBy, runsBy]
         try omega)

theorem step_stopInv {σ : Type} (env : Callables σ) (a : Action) (p p' : ThreadPool σ)
    (h : step env a p = some p') (hinv : StopInv p) : StopInv p' := by
  cases a with
  | worker i =>
    simp only [step] at h
    cases hw : p.workers_[i]? with
    | none => simp [hw] at h
    | some pc =>
      rw [hw] at h
      exact workerThread_stopInv env i pc p p' hw h hinv
  | wake i =>
    simp only [step] at h
    cases hw : p.workers_[i]? with
    | none => simp [hw] at h
    | some pc =>
      rw [hw] at h
      simp only [wakeStep] at h
      split_ifs at h
      cases pc <;> cases h
      all_goals
        refine stopInv_move i [] hw hinv rfl rfl rfl (by simp) ?_ ?_
        · intro j hj
          simp [popsBy, runsBy]
        · intro hs P R hb
          simp_all [stopBound, popsBy, runsBy]
  | tick d =>
    cases h
    exact hinv
  | requestStop =>
    simp only [step] at h
    split_ifs at h
    cases h
    constructor
    · simp
    · intro _ j pc _
      simp only [sinceStop, if_true, popsBy, runsBy]
      exact stopBound_zero pc
  | scheduleOnce now func delay =>
    simp only [step] at h
    split_ifs at h
    cases h
    cases func with
    | none => exact hinv
    | some f =>
      obtain ⟨hmem, hb⟩ := hinv
      constructor
      · simp [scheduleOnce, hmem]
      · intro hstop j pc hj
        have hin : Event.stopRequested ∈ p.log := hmem.mp hstop
        simp only [scheduleOnce, sinceStop, hin, if_true, popsBy, runsBy]
        simpa using hb hstop j pc hj
  | scheduleRepeating now func delay interval condition =>
    simp only [step] at h
    split_ifs at h
    cases h
    cases func with
    | none => exact hinv
    | some f =>
      obtain ⟨hmem, hb⟩ := hinv
      constructor
      · simp [scheduleRepeating, hmem]
      · intro hstop j pc hj
        have hin : Event.stopRequested ∈ p.log := hmem.mp hstop
        simp only [scheduleRepeating, sinceStop, hin, if_true, popsBy, runsBy]
        simpa using hb hstop j pc hj

theorem run_stopInv {σ : Type} (env : Callables σ) (as : List Action) (p p' : ThreadPool σ)
    (h : run env as p = some p') (hinv : StopInv p) : StopInv p' := by
  induction as generalizing p with
  | nil =>
    simp only [run, Option.some.injEq] at h
    subst h
    exact hinv
  | cons a as ih =>
    simp only [run] at h
    cases hs : step env a p with
    | none => simp [hs] at h
    | some q =>
      rw [hs] at h
      exact ih q h (step_stopInv env a p q hs hinv)

theorem create_stopInv {σ : Type} (numThreads : Nat) (clock : TimePoint) (world : σ) :
    StopInv (ThreadPool.create numThreads clock world) := by
  constructor
  · simp [ThreadPool.create]
  · intro h
    simp [ThreadPool.create] at h

theorem sinceStop_of_not_mem {l : List Event} (h : Event.stopRequested ∉ l) :
    sinceStop l = [] := by
  cases l with
  | nil => rfl
  | cons e es =>
    have h1 : e ≠ Event.stopRequested := fun he => h (by simp [he])
    have h2 : Event.stopRequested ∉ es := fun he => h (by simp [he])
    simp [sinceStop, h1, h2]

/-- A run in which the stop request falls between a worker's check at the
loop head and its locking of the mutex: after the request the worker pops the
pending task and calls its action (claim C8 fails here). -/
theorem pop_and_run_after_stop :
    (run zeroCountEnv stopRace (ThreadPool.create 1 0 0)).map
        (fun p => (p.log, p.workers_, p.world))
      = some ([Event.ran 0 7, Event.popped 0 ⟨some 7, none, 0, 0⟩ 0, Event.stopRequested,
                Event.submitted ⟨some 7, none, 0, 0⟩], [Pc.exited], 1) ∧
    (run zeroCountEnv stopRace (ThreadPool.create 1 0 0)).map
        (fun p => (popsBy 0 (sinceStop p.log), runsBy 0 (sinceStop p.log)))
      = some (1, 1) := by
  decide

/-- C8, amended. In every state the pool reaches from its construction, each
worker has, since the stop request, removed at most one task from the queue
and called at most one action, and none at all unless it had passed the check
at the loop head before the request (it is then about to run that task, or
past it); and a worker that reads the flag as set at the loop head or after
either wait returns without touching the queue or calling anything. -/
theorem stop_bounds_work {σ : Type} (env : Callables σ) (numThreads : Nat) (clock : TimePoint)
    (world : σ) (as : List Action) (p : ThreadPool σ) (i : Nat) (pc : Pc)
    (hrun : run env as (ThreadPool.create numThreads clock world) = some p)
    (hpc : p.workers_[i]? = some pc) :
    popsBy i (sinceStop p.log) ≤ 1 ∧ runsBy i (sinceStop p.log) ≤ 1 ∧
    (p.stop_ = true →
      stopBound pc (popsBy i (sinceStop p.log)) (runsBy i (sinceStop p.log))) ∧
    (p.stop_ = true → (pc = Pc.loopHead ∨ pc = Pc.waitEmptyDone ∨ pc = Pc.timedDone) →
      ∃ p', step env (Action.worker i) p = some p' ∧ p'.workers_[i]? = some Pc.exited ∧
        p'.taskQueue_ = p.taskQueue_ ∧ p'.world = p.world ∧ p'.log = p.log) := by
  have hinv : StopInv p := run_stopInv env as _ p hrun (create_stopInv numThreads clock world)
  obtain ⟨hmem, hb⟩ := hinv
  have hle : popsBy i (sinceStop p.log) ≤ 1 ∧ runsBy i (sinceStop p.log) ≤ 1 := by
    by_cases hs : p.stop_ = true
    · have := hb hs i pc hpc
      cases pc <;> simp only [stopBound] at this <;> omega
    · have hnm : Event.stopRequested ∉ p.log := fun h => hs (hmem.mpr h)
      rw [sinceStop_of_not_mem hnm]
      simp [popsBy, runsBy]
  refine ⟨hle.1, hle.2, fun hs => hb hs i pc hpc, ?_⟩
  intro hs hcase
  rcases hcase with h | h | h <;> subst h
  · exact ⟨p.goto i Pc.exited, by simp only [step, hpc, workerThread, hs, if_true],
      workers_set_self hpc, rfl, rfl, rfl⟩
  · exact ⟨{ p.goto i Pc.exited with queueMutex_ := none },
      by simp only [step, hpc, workerThread, hs, if_true],
      workers_set_self hpc, rfl, rfl, rfl⟩
  · exact ⟨{ p.goto i Pc.exited with queueMutex_ := none },
      by simp only [step, hpc, workerThread, hs, if_true],
      workers_set_self hpc, rfl, rfl, rfl⟩

theorem stop_bounds_work_witness :
    popsBy 0 (sinceStop [Event.ran 0 7, Event.popped 0 ⟨some 7, none, 0, 0⟩ 0,
      Event.stopRequested, Event.submitted ⟨some 7, none, 0, 0⟩]) ≤ 1 :=
  (stop_bounds_work zeroCountEnv 1 0 0 stopRace
    { workers_ := [Pc.exited], taskQueue_ := [], queueMutex_ := none, stop_ := true, clock := 0,
      world := 1,
      log := [Event.ran 0 7, Event.popped 0 ⟨some 7, none, 0, 0⟩ 0, Event.stopRequested,
        Event.submitted ⟨some 7, none, 0, 0⟩] }
    0 Pc.exited (by rfl) (by rfl)).1

/-! ## The chain of runs of one repeating task -/

theorem run_append {σ : Type} (env : Callables σ) (as bs : List Action) (p : ThreadPool σ) :
    run env (as ++ bs) p = (run env as p).bind (run env bs) := by
  induction as generalizing p with
  | nil => rfl
  | cons a as ih =>
    simp only [List.cons_append, run]
    cases step env a p with
    | none => rfl
    | some q => exact ih q

theorem repeats_of_nonneg (repeatMs : Int) (c : Nat) (h : 0 ≤ repeatMs) :
    repeats repeatMs (some c) = true := by
  unfold repeats
  by_cases h1 : 0 < repeatMs
  · simp [h1]
  · have : repeatMs = 0 := by omega
    simp [this]

theorem le_add_untilDue (clock due : TimePoint) :
    due ≤ clock + (untilDue clock due : Int) := by
  unfold untilDue
  have := Int.self_le_toNat (due - clock)
  linarith

theorem soloCycle_true {σ : Type} (env : Callables σ) (f c : Nat) (repeatMs : Int) (world : σ)
    (clock due : TimePoint) (log : List Event) (hms : 0 ≤ repeatMs) (hdue : due ≤ clock)
    (hk : (env.cond c (env.act f world)).1 = true) :
    run env (soloCycle (untilDue clock (nextTime clock repeatMs)))
        (soloPool f c repeatMs world clock due log)
      = some (soloPool f c repeatMs (env.cond c (env.act f world)).2
          (clock + (untilDue clock (nextTime clock repeatMs) : Int)) (nextTime clock repeatMs)
          (Event.requeued 0 ⟨some f, some c, nextTime clock repeatMs, repeatMs⟩ ::
            Event.condReturned 0 (some f) c true :: Event.ran 0 f ::
            Event.popped 0 ⟨some f, some c, due, repeatMs⟩ clock :: log)) := by
  have hr := repeats_of_nonneg repeatMs c hms
  have hnd : ¬ clock < due := not_lt.mpr hdue
  simp [soloCycle, soloPool, run, step, workerThread, ThreadPool.goto, lockedSection, TaskQueue.empty,
    TaskQueue.top, TaskQueue.pop, popHeap, TaskQueue.emplace, pushHeap, siftUp, hr, hk, hnd]

theorem soloFinal_false {σ : Type} (env : Callables σ) (f c : Nat) (repeatMs : Int) (world : σ)
    (clock due : TimePoint) (log : List Event) (hms : 0 ≤ repeatMs) (hdue : due ≤ clock)
    (hk : (env.cond c (env.act f world)).1 = false) :
    run env (soloSchedule repeatMs clock 0) (soloPool f c repeatMs world clock due log)
      = some { workers_ := [Pc.loopHead], taskQueue_ := [], queueMutex_ := none, stop_ := false,
               clock := clock, world := (env.cond c (env.act f world)).2,
               log := Event.condReturned 0 (some f) c false :: Event.ran 0 f ::
                 Event.popped 0 ⟨some f, some c, due, repeatMs⟩ clock :: log } := by
  have hr := repeats_of_nonneg repeatMs c hms
  have hnd : ¬ clock < due := not_lt.mpr hdue
  simp [soloSchedule, soloPool, run, step, workerThread, ThreadPool.goto, lockedSection,
    TaskQueue.empty, TaskQueue.top, TaskQueue.pop, popHeap, hr, hk, hnd]

theorem worldAfter_shift {σ : Type} (env : Callables σ) (f c : Nat) (world : σ) (j : Nat) :
    worldAfter env f c world (j + 1)
      = worldAfter env f c (env.cond c (env.act f world)).2 j := by
  induction j with
  | zero => rfl
  | succ j ih =>
    show (env.cond c (env.act f (worldAfter env f c world (j + 1)))).2 = _
    rw [ih]
    rfl

theorem condAt_shift {σ : Type} (env : Callables σ) (f c : Nat) (world : σ) (j : Nat) :
    condAt env f c world (j + 1) = condAt env f c (env.cond c (env.act f world)).2 j := by
  unfold condAt
  rw [worldAfter_shift]

/-- From the pool with the task pending and due, the schedule of `k` rounds
reaches the false return of round `k`, when the rounds before it return
true. -/
theorem soloSchedule_reaches {σ : Type} (env : Callables σ) (f c : Nat) (repeatMs : Int)
    (hms : 0 ≤ repeatMs) (k : Nat) (world : σ) (clock due : TimePoint) (log : List Event)
    (hdue : due ≤ clock)
    (htrue : ∀ j, j < k → condAt env f c world j = true)
    (hfalse : condAt env f c world k = false) :
    ∃ p, run env (soloSchedule repeatMs clock k) (soloPool f c repeatMs world clock due log)
        = some p ∧
      p.taskQueue_ = [] ∧ p.workers_ = [Pc.loopHead] ∧
      execsOf f p.log = execsOf f log + (k + 1) ∧
      truesOf f p.log = truesOf f log + k ∧
      falsesOf f p.log = falsesOf f log + 1 := by
  induction k generalizing world clock due log with
  | zero =>
    refine ⟨_, soloFinal_false env f c repeatMs world clock due log hms hdue hfalse,
      rfl, rfl, ?_, ?_, ?_⟩
    · simp [execsOf]; omega
    · simp [truesOf]
    · simp [falsesOf]; omega
  | succ k ih =>
    have h0 : (env.cond c (env.act f world)).1 = true := htrue 0 (Nat.succ_pos k)
    have hcyc := soloCycle_true env f c repeatMs world clock due log hms hdue h0
    obtain ⟨p, hp, hq, hw, he, ht, hf⟩ := ih (env.cond c (env.act f world)).2
      (clock + (untilDue clock (nextTime clock repeatMs) : Int)) (nextTime clock repeatMs)
      (Event.requeued 0 ⟨some f, some c, nextTime clock repeatMs, repeatMs⟩ ::
        Event.condReturned 0 (some f) c true :: Event.ran 0 f ::
        Event.popped 0 ⟨some f, some c, due, repeatMs⟩ clock :: log)
      (le_add_untilDue clock (nextTime clock repeatMs))
      (fun j hj => by rw [← condAt_shift]; exact htrue (j + 1) (Nat.succ_lt_succ hj))
      (by rw [← condAt_shift]; exact hfalse)
    refine ⟨p, ?_, hq, hw, ?_, ?_, ?_⟩
    · simp only [soloSchedule]
      rw [run_append, hcyc]
      exact hp
    · rw [he]; simp [execsOf]; omega
    · rw [ht]; simp [truesOf]; omega
    · rw [hf]; simp [falsesOf]

/-- A pool with one worker, given one repeating task with a condition and a
non-negative interval, does reach the false return: when the condition
returns true in the rounds before round `k` and false in round `k`, the
one-worker schedule runs to a state where the action has been called `k + 1`
times, the condition has returned true `k` times and false once, and the
queue is empty. -/
theorem solo_run_reaches_false {σ : Type} (env : Callables σ) (f c : Nat) (world : σ)
    (clock : TimePoint) (delay repeatMs : Int) (k : Nat) (hms : 0 ≤ repeatMs)
    (htrue : ∀ j, j < k → condAt env f c world j = true)
    (hfalse : condAt env f c world k = false) :
    ∃ p, run env (Action.tick (untilDue clock (wrap64 (clock + delay))) ::
          soloSchedule repeatMs (clock + untilDue clock (wrap64 (clock + delay))) k)
        (scheduleRepeating (ThreadPool.create 1 clock world) clock (some f) delay repeatMs (some c))
        = some p ∧
      execsOf f p.log = k + 1 ∧ truesOf f p.log = k ∧ falsesOf f p.log = 1 ∧
      p.taskQueue_ = [] := by
  obtain ⟨p, hp, hq, _, he, ht, hf⟩ := soloSchedule_reaches env f c repeatMs hms k world
    (clock + (untilDue clock (wrap64 (clock + delay)) : Int)) (wrap64 (clock + delay))
    [Event.submitted ⟨some f, some c, wrap64 (clock + delay), repeatMs⟩]
    (le_add_untilDue clock _) htrue hfalse
  refine ⟨p, ?_, ?_, ?_, ?_, hq⟩
  · simp only [run, step]
    exact hp
  · rw [he]; simp [execsOf]
  · rw [ht]; simp [truesOf]
  · rw [hf]; simp [falsesOf]

/-! ## Every removal and every run is of a due task -/

theorem lastBy_cons_self {i : Nat} {e : Event} (l : List Event) (h : e.doer = some i) :
    lastBy i (e :: l) = some e := by
  simp [lastBy, List.find?, h]

theorem lastBy_cons_other {i : Nat} {e : Event} (l : List Event) (h : e.doer ≠ some i) :
    lastBy i (e :: l) = lastBy i l := by
  simp [lastBy, List.find?, h]

theorem lastBy_append_other {i j : Nat} (evs l : List Event) (hij : j ≠ i)
    (h : ∀ e ∈ evs, e.doer = some i) : lastBy j (evs ++ l) = lastBy j l := by
  induction evs with
  | nil => rfl
  | cons e es ih =>
    rw [List.cons_append, lastBy_cons_other]
    · exact ih (fun x hx => h x (List.mem_cons_of_mem e hx))
    · rw [h e (List.mem_cons_self e es)]
      intro hc
      exact hij (Option.some.inj hc).symm

theorem dueLog_popped {l : List Event} (h : DueLog l) (w : Nat) (t : ScheduledTask)
    (now : TimePoint) (hm : Event.popped w t now ∈ l) : t.nextRunTime ≤ now := by
  induction l with
  | nil => simp at hm
  | cons e es ih =>
    rcases List.mem_cons.mp hm with he | he
    · subst he
      exact h.1
    · cases e <;> simp only [DueLog] at h
      case popped => exact ih h.2 he
      case ran => exact ih h.2 he
      all_goals exact ih h he

theorem dueLog_ran {l : List Event} (h : DueLog l) (w f : Nat) (newer older : List Event)
    (hl : l = newer ++ Event.ran w f :: older) :
    ∃ t now, lastBy w older = some (Event.popped w t now) ∧ t.func = some f ∧
      t.nextRunTime ≤ now := by
  induction newer generalizing l with
  | nil =>
    subst hl
    exact h.1
  | cons e es ih =>
    subst hl
    cases e <;> simp only [List.cons_append, DueLog] at h
    case popped => exact ih h.2 rfl
    case ran => exact ih h.2 rfl
    all_goals exact ih h rfl

/-- The invariant after a move of worker `i` from `pc` to `pc'` that records
`evs`. -/
theorem dueInv_move {σ : Type} {p q : ThreadPool σ} (i : Nat) (evs : List Event) {pc pc' : Pc}
    (_hpc : p.workers_[i]? = some pc) (hinv : DueInv p)
    (hw : q.workers_ = p.workers_.set i pc') (hl : q.log = evs ++ p.log)
    (hdoer : ∀ e ∈ evs, e.doer = some i)
    (hlog : DueLog (evs ++ p.log))
    (hheld : ∀ tf tc ms, pc' = Pc.runTask tf tc ms →
      tf = none ∨ ∃ t now, lastBy i (evs ++ p.log) = some (Event.popped i t now) ∧
        t.func = tf ∧ t.nextRunTime ≤ now) : DueInv q := by
  constructor
  · rw [hl]; exact hlog
  · intro j tf tc ms hj
    rw [hw] at hj
    rw [hl]
    by_cases hji : j = i
    · subst hji
      rw [workers_set_self _hpc] at hj
      exact hheld tf tc ms (Option.some.inj hj)
    · rw [workers_set_other (fun h => hji h.symm)] at hj
      rw [lastBy_append_other evs p.log hji hdoer]
      exact hinv.2 j tf tc ms hj

theorem workerThread_dueInv {σ : Type} (env : Callables σ) (i : Nat) (pc : Pc) (p p' : ThreadPool σ)
    (hpc : p.workers_[i]? = some pc)
    (h : workerThread env i pc p = some p') (hinv : DueInv p) : DueInv p' := by
  cases pc <;> simp only [workerThread] at h
  case lockQueue =>
    split_ifs at h
    split at h
    · cases h
      exact dueInv_move i [] hpc hinv rfl rfl (by simp) hinv.1 (fun _ _ _ hc => by cases hc)
    · cases h
      exact dueInv_move i [] hpc hinv rfl rfl (by simp) hinv.1 (fun _ _ _ hc => by cases hc)
    · rename_i top rest hls
      obtain ⟨_, h2, _⟩ := lockedSection_ready hls
      cases h
      refine dueInv_move i [Event.popped i top p.clock] hpc hinv rfl rfl (by simp [Event.doer])
        ⟨h2, hinv.1⟩ ?_
      intro tf tc ms hc
      cases hc
      exact Or.inr ⟨top, p.clock, lastBy_cons_self _ rfl, rfl, h2⟩
  case waitEmptyDone =>
    split_ifs at h
    · cases h
      exact dueInv_move i [] hpc hinv rfl rfl (by simp) hinv.1 (fun _ _ _ hc => by cases hc)
    · cases h
      refine dueInv_move i [] hpc hinv rfl rfl (by simp) hinv.1 ?_
      intro tf tc ms hc
      cases hc
      exact Or.inl rfl
  case runTask tf tc ms =>
    cases tf with
    | none =>
      cases h
      exact dueInv_move i [] hpc hinv rfl rfl (by simp) hinv.1 (fun _ _ _ hc => by cases hc)
    | some f =>
      cases h
      refine dueInv_move i [Event.ran i f] hpc hinv rfl rfl (by simp [Event.doer]) ?_
        (fun _ _ _ hc => by cases hc)
      refine ⟨?_, hinv.1⟩
      rcases hinv.2 i (some f) tc ms hpc with hn | hx
      · cases hn
      · exact hx
  case checkStop tf tc ms =>
    split_ifs at h
    · cases h
      exact dueInv_move i [] hpc hinv rfl rfl (by simp) hinv.1 (fun _ _ _ hc => by cases hc)
    · cases tc <;> cases h <;>
        exact dueInv_move i [] hpc hinv rfl rfl (by simp) hinv.1 (fun _ _ _ hc => by cases hc)
    · cases h
      exact dueInv_move i [] hpc hinv rfl rfl (by simp) hinv.1 (fun _ _ _ hc => by cases hc)
  case evalCond tf c ms =>
    cases hk : (env.cond c p.world).1 <;> rw [hk] at h <;>
      simp only [Bool.false_eq_true, if_false, if_true] at h <;> cases h
    · exact dueInv_move i [Event.condReturned i tf c false] hpc hinv rfl rfl
        (by simp [Event.doer]) hinv.1 (fun _ _ _ hc => by cases hc)
    · exact dueInv_move i [Event.condReturned i tf c true] hpc hinv rfl rfl
        (by simp [Event.doer]) hinv.1 (fun _ _ _ hc => by cases hc)
  case requeue tf tc nt ms =>
    split_ifs at h
    cases h
    exact dueInv_move i [Event.requeued i ⟨tf, tc, nt, ms⟩] hpc hinv rfl rfl
      (by simp [Event.doer]) hinv.1 (fun _ _ _ hc => by cases hc)
  all_goals (try split_ifs at h)
  all_goals (try cases h)
  all_goals
    exact dueInv_move i [] hpc hinv rfl rfl (by simp) hinv.1 (fun _ _ _ hc => by cases hc)

theorem step_dueInv {σ : Type} (env : Callables σ) (a : Action) (p p' : ThreadPool σ)
    (h : step env a p = some p') (hinv : DueInv p) : DueInv p' := by
  cases a with
  | worker i =>
    simp only [step] at h
    cases hw : p.workers_[i]? with
    | none => simp [hw] at h
    | some pc =>
      rw [hw] at h
      exact workerThread_dueInv env i pc p p' hw h hinv
  | wake i =>
    simp only [step] at h
    cases hw : p.workers_[i]? with
    | none => simp [hw] at h
    | some pc =>
      rw [hw] at h
      simp only [wakeStep] at h
      split_ifs at h
      cases pc <;> cases h
      all_goals
        exact dueInv_move i [] hw hinv rfl rfl (by simp) hinv.1 (fun _ _ _ hc => by cases hc)
  | tick d =>
    cases h
    exact hinv
  | requestStop =>
    simp only [step] at h
    split_ifs at h
    cases h
    exact ⟨hinv.1, fun j tf tc ms hj => hinv.2 j tf tc ms hj⟩
  | scheduleOnce now func delay =>
    simp only [step] at h
    split_ifs at h
    cases h
    cases func with
    | none => exact hinv
    | some g => exact ⟨hinv.1, fun j tf tc ms hj => hinv.2 j tf tc ms hj⟩
  | scheduleRepeating now func delay interval condition =>
    simp only [step] at h
    split_ifs at h
    cases h
    cases func with
    | none => exact hinv
    | some g => exact ⟨hinv.1, fun j tf tc ms hj => hinv.2 j tf tc ms hj⟩

theorem run_dueInv {σ : Type} (env : Callables σ) (as : List Action) (p p' : ThreadPool σ)
    (h : run env as p = some p') (hinv : DueInv p) : DueInv p' := by
  induction as generalizing p with
  | nil =>
    simp only [run, Option.some.injEq] at h
    subst h
    exact hinv
  | cons a as ih =>
    simp only [run] at h
    cases hs : step env a p with
    | none => simp [hs] at h
    | some q =>
      rw [hs] at h
      exact ih q h (step_dueInv env a p q hs hinv)

theorem create_dueInv {σ : Type} (numThreads : Nat) (clock : TimePoint) (world : σ) :
    DueInv (ThreadPool.create numThreads clock world) := by
  constructor
  · trivial
  · intro i tf tc ms hi
    simp only [ThreadPool.create] at hi
    have hmem := List.getElem?_mem hi
    rw [List.mem_replicate] at hmem
    cases hmem.2

/-- A step removes a task from the queue only as the pop of a worker that
has just locked the mutex and found the first task due. -/
theorem step_removal {σ : Type} (env : Callables σ) (a : Action) (p p' : ThreadPool σ)
    (h : step env a p = some p') :
    p'.taskQueue_ = p.taskQueue_ ∨
    (∃ t, p'.taskQueue_ = p.taskQueue_.emplace t) ∨
    (∃ i top, a = Action.worker i ∧ p.workers_[i]? = some Pc.lockQueue ∧
      p.taskQueue_.top = some top ∧ top.nextRunTime ≤ p.clock ∧
      p'.taskQueue_ = p.taskQueue_.pop ∧
      p'.workers_[i]? = some (Pc.runTask top.func top.condition top.repeatInterval) ∧
      p'.log = Event.popped i top p.clock :: p.log) := by
  cases a with
  | worker i =>
    simp only [step] at h
    cases hw : p.workers_[i]? with
    | none => simp [hw] at h
    | some pc =>
      rw [hw] at h
      simp only at h
      cases pc <;> simp only [workerThread] at h
      case lockQueue =>
        split_ifs at h
        split at h
        · cases h; exact Or.inl rfl
        · cases h; exact Or.inl rfl
        · rename_i top rest hls
          obtain ⟨h1, h2, h3⟩ := lockedSection_ready hls
          cases h
          exact Or.inr (Or.inr ⟨i, top, rfl, hw, h1, h2, h3, workers_set_self hw, rfl⟩)
      case requeue f c nt ms =>
        split_ifs at h
        cases h
        exact Or.inr (Or.inl ⟨_, rfl⟩)
      case runTask f c ms =>
        cases f <;> cases h <;> exact Or.inl rfl
      case checkStop f c ms =>
        split_ifs at h
        · cases h; exact Or.inl rfl
        · cases c <;> cases h <;> exact Or.inl rfl
        · cases h; exact Or.inl rfl
      all_goals
        first
        | (cases h; exact Or.inl rfl)
        | cases h
        | (split_ifs at h <;> cases h <;> exact Or.inl rfl)
  | wake i =>
    simp only [step] at h
    cases hw : p.workers_[i]? with
    | none => simp [hw] at h
    | some pc =>
      rw [hw] at h
      simp only [wakeStep] at h
      split_ifs at h
      cases pc <;> cases h <;> exact Or.inl rfl
  | tick d => cases h; exact Or.inl rfl
  | requestStop =>
    simp only [step] at h
    split_ifs at h
    cases h
    exact Or.inl rfl
  | scheduleOnce now func delay =>
    simp only [step] at h
    split_ifs at h
    cases h
    cases func
    · exact Or.inl rfl
    · exact Or.inr (Or.inl ⟨_, rfl⟩)
  | scheduleRepeating now func delay interval condition =>
    simp only [step] at h
    split_ifs at h
    cases h
    cases func
    · exact Or.inl rfl
    · exact Or.inr (Or.inl ⟨_, rfl⟩)

/-- A move of worker `i` that ends at line 108 starts after the empty wait,
with empty locals, or is the pop of the first task, found due. -/
theorem workerThread_handover {σ : Type} (env : Callables σ) (i : Nat) (pc : Pc)
    (p p' : ThreadPool σ) (hpc : p.workers_[i]? = some pc)
    (h : workerThread env i pc p = some p') (tf tc : Option Nat) (ms : Int)
    (hrun : p'.workers_[i]? = some (Pc.runTask tf tc ms)) :
    (pc = Pc.waitEmptyDone ∧ tf = none ∧ tc = none ∧ ms = 0 ∧
      p'.taskQueue_ = p.taskQueue_ ∧ p'.log = p.log) ∨
    (pc = Pc.lockQueue ∧ ∃ top, p.taskQueue_.top = some top ∧ top.nextRunTime ≤ p.clock ∧
      tf = top.func ∧ tc = top.condition ∧ ms = top.repeatInterval ∧
      p'.taskQueue_ = p.taskQueue_.pop ∧ p'.log = Event.popped i top p.clock :: p.log) := by
  have hset : ∀ (q : ThreadPool σ) (pc' : Pc), q.workers_ = p.workers_.set i pc' →
      q.workers_[i]? = some (Pc.runTask tf tc ms) → pc' = Pc.runTask tf tc ms := by
    intro q pc' hq hr
    rw [hq, workers_set_self hpc] at hr
    exact Option.some.inj hr
  cases pc <;> simp only [workerThread] at h
  case lockQueue =>
    split_ifs at h
    split at h
    · cases h
      cases hset _ _ rfl hrun
    · cases h
      cases hset _ _ rfl hrun
    · rename_i top rest hls
      obtain ⟨h1, h2, h3⟩ := lockedSection_ready hls
      cases h
      have he := hset _ _ rfl hrun
      simp only [Pc.runTask.injEq] at he
      exact Or.inr ⟨rfl, top, h1, h2, he.1.symm, he.2.1.symm, he.2.2.symm, h3, rfl⟩
  case waitEmptyDone =>
    split_ifs at h
    · cases h
      cases hset _ _ rfl hrun
    · cases h
      have he := hset _ _ rfl hrun
      simp only [Pc.runTask.injEq] at he
      exact Or.inl ⟨rfl, he.1.symm, he.2.1.symm, he.2.2.symm, rfl, rfl⟩
  case runTask f c m =>
    cases f <;> cases h <;> cases hset _ _ rfl hrun
  case checkStop f c m =>
    split_ifs at h
    · cases h; cases hset _ _ rfl hrun
    · cases c <;> cases h <;> cases hset _ _ rfl hrun
    · cases h; cases hset _ _ rfl hrun
  case evalCond f c m =>
    cases hk : (env.cond c p.world).1 <;> rw [hk] at h <;>
      simp only [Bool.false_eq_true, if_false, if_true] at h <;> cases h <;>
      cases hset _ _ rfl hrun
  all_goals (try split_ifs at h)
  all_goals (try cases h)
  all_goals cases hset _ _ rfl hrun

/-- A step that leaves worker `i` at line 108 found it there, or is the move
of that worker described by `workerThread_handover`. -/
theorem step_handover {σ : Type} (env : Callables σ) (a : Action) (p p' : ThreadPool σ)
    (h : step env a p = some p') (i : Nat) (tf tc : Option Nat) (ms : Int)
    (hrun : p'.workers_[i]? = some (Pc.runTask tf tc ms)) :
    p.workers_[i]? = some (Pc.runTask tf tc ms) ∨
    (a = Action.worker i ∧ p.workers_[i]? = some Pc.waitEmptyDone ∧
      tf = none ∧ tc = none ∧ ms = 0 ∧ p'.taskQueue_ = p.taskQueue_ ∧ p'.log = p.log) ∨
    (a = Action.worker i ∧ p.workers_[i]? = some Pc.lockQueue ∧
      ∃ top, p.taskQueue_.top = some top ∧ top.nextRunTime ≤ p.clock ∧
        tf = top.func ∧ tc = top.condition ∧ ms = top.repeatInterval ∧
        p'.taskQueue_ = p.taskQueue_.pop ∧ p'.log = Event.popped i top p.clock :: p.log) := by
  cases a with
  | worker j =>
    simp only [step] at h
    cases hw : p.workers_[j]? with
    | none => simp [hw] at h
    | some pc =>
      rw [hw] at h
      simp only at h
      by_cases hji : j = i
      · subst hji
        rcases workerThread_handover env j pc p p' hw h tf tc ms hrun with h1 | h1
        · obtain ⟨e, rest⟩ := h1
          subst e
          exact Or.inr (Or.inl ⟨rfl, hw, rest⟩)
        · obtain ⟨e, rest⟩ := h1
          subst e
          exact Or.inr (Or.inr ⟨rfl, hw, rest⟩)
      · left
        have hsame : p'.workers_[i]? = p.workers_[i]? := by
          cases pc <;> simp only [workerThread] at h
          case evalCond f c m =>
            cases h
            exact workers_set_other hji
          all_goals (try split_ifs at h)
          all_goals (try split at h)
          all_goals (try cases h)
          all_goals exact workers_set_other hji
        rw [← hsame]
        exact hrun
  | wake j =>
    simp only [step] at h
    cases hw : p.workers_[j]? with
    | none => simp [hw] at h
    | some pc =>
      rw [hw] at h
      simp only [wakeStep] at h
      split_ifs at h
      left
      by_cases hji : j = i
      · subst hji
        cases pc <;> cases h
        all_goals
          rw [show ∀ (q : ThreadPool σ) (m : Option Nat), ({ q with queueMutex_ := m } : ThreadPool σ).workers_
            = q.workers_ from fun _ _ => rfl] at hrun
          simp only [ThreadPool.goto] at hrun
          rw [workers_set_self hw] at hrun
          cases hrun
      · have hsame : p'.workers_[i]? = p.workers_[i]? := by
          cases pc <;> cases h <;> exact workers_set_other hji
        rw [← hsame]
        exact hrun
  | tick d => cases h; exact Or.inl hrun
  | requestStop =>
    simp only [step] at h
    split_ifs at h
    cases h
    exact Or.inl hrun
  | scheduleOnce now func delay =>
    simp only [step] at h
    split_ifs at h
    cases h
    cases func <;> exact Or.inl hrun
  | scheduleRepeating now func delay interval condition =>
    simp only [step] at h
    split_ifs at h
    cases h
    cases func <;> exact Or.inl hrun

/-- A step calls an action only as the move of a worker at line 108 that
holds it, and a condition only as the move of a worker at line 123. -/
theorem step_calls {σ : Type} (env : Callables σ) (a : Action) (p p' : ThreadPool σ)
    (h : step env a p = some p') :
    (p'.world = p.world ∧ ∀ w f, p'.log ≠ Event.ran w f :: p.log) ∨
    (∃ i f tc ms, a = Action.worker i ∧
      p.workers_[i]? = some (Pc.runTask (some f) tc ms) ∧
      p'.world = env.act f p.world ∧ p'.log = Event.ran i f :: p.log) ∨
    (∃ i tf c ms, a = Action.worker i ∧ p.workers_[i]? = some (Pc.evalCond tf c ms) ∧
      p'.world = (env.cond c p.world).2 ∧
      p'.log = Event.condReturned i tf c (env.cond c p.world).1 :: p.log) := by
  have hne : ∀ (l : List Event) w f, l ≠ Event.ran w f :: l := by
    intro l w f hc
    have := congrArg List.length hc
    simp at this
  cases a with
  | worker i =>
    simp only [step] at h
    cases hw : p.workers_[i]? with
    | none => simp [hw] at h
    | some pc =>
      rw [hw] at h
      simp only at h
      cases pc <;> simp only [workerThread] at h
      case runTask f c ms =>
        cases f with
        | none =>
          cases h
          exact Or.inl ⟨rfl, hne _⟩
        | some g =>
          cases h
          exact Or.inr (Or.inl ⟨i, g, c, ms, rfl, hw, rfl, rfl⟩)
      case evalCond f c ms =>
        cases h
        exact Or.inr (Or.inr ⟨i, f, c, ms, rfl, hw, rfl, rfl⟩)
      all_goals (try split_ifs at h)
      all_goals (try split at h)
      all_goals (try cases h)
      all_goals
        first
        | exact Or.inl ⟨rfl, hne _⟩
        | exact Or.inl ⟨rfl, fun w f hc => by cases hc⟩
  | wake i =>
    simp only [step] at h
    cases hw : p.workers_[i]? with
    | none => simp [hw] at h
    | some pc =>
      rw [hw] at h
      simp only [wakeStep] at h
      split_ifs at h
      cases pc <;> cases h <;> exact Or.inl ⟨rfl, hne _⟩
  | tick d => cases h; exact Or.inl ⟨rfl, hne _⟩
  | requestStop =>
    simp only [step] at h
    split_ifs at h
    cases h
    exact Or.inl ⟨rfl, fun w f hc => by cases hc⟩
  | scheduleOnce now func delay =>
    simp only [step] at h
    split_ifs at h
    cases h
    cases func
    · exact Or.inl ⟨rfl, hne _⟩
    · exact Or.inl ⟨rfl, fun w f hc => by cases hc⟩
  | scheduleRepeating now func delay interval condition =>
    simp only [step] at h
    split_ifs at h
    cases h
    cases func
    · exact Or.inl ⟨rfl, hne _⟩
    · exact Or.inl ⟨rfl, fun w f hc => by cases hc⟩

/-- A worker that locks the mutex while the first task is not yet due
removes nothing, calls nothing and enters the timed wait. -/
theorem lockQueue_notDue {σ : Type} (env : Callables σ) (q q' : ThreadPool σ) (i : Nat)
    (top : ScheduledTask) (hpc : q.workers_[i]? = some Pc.lockQueue)
    (hstep : step env (Action.worker i) q = some q')
    (ht : q.taskQueue_.top = some top) (hlt : q.clock < top.nextRunTime) :
    q'.taskQueue_ = q.taskQueue_ ∧ q'.world = q.world ∧ q'.log = q.log ∧
    q'.workers_[i]? = some (Pc.timedPred
      (wrap64 (q.clock + wrap64 (top.nextRunTime - q.clock)))) := by
  simp only [step, hpc, workerThread] at hstep
  split_ifs at hstep with hm
  rw [lockedSection_notDue ht hlt] at hstep
  simp only [Option.some.injEq] at hstep
  subst hstep
  exact ⟨rfl, rfl, rfl, workers_set_self hpc⟩

/-- No step of a worker inside the timed wait touches the queue or calls
anything; the worker stays in the wait, goes back to the loop head, or
returns. -/
theorem timedWait_inert {σ : Type} (env : Callables σ) (q q' : ThreadPool σ) (i : Nat) (pc : Pc)
    (hq : q.workers_[i]? = some pc) (hin : pc.inTimedWait = true)
    (hs : step env (Action.worker i) q = some q' ∨ step env (Action.wake i) q = some q') :
    q'.taskQueue_ = q.taskQueue_ ∧ q'.world = q.world ∧ q'.log = q.log ∧
    ∃ pc', q'.workers_[i]? = some pc' ∧
      (pc'.inTimedWait = true ∨ pc' = Pc.loopHead ∨ pc' = Pc.exited) := by
  cases pc <;> simp only [Pc.inTimedWait, Bool.false_eq_true] at hin
  · rcases hs with hs | hs
    · simp only [step, hq, workerThread] at hs
      split_ifs at hs <;> simp only [Option.some.injEq] at hs <;> subst hs
      · exact ⟨rfl, rfl, rfl, _, workers_set_self hq, Or.inl rfl⟩
      · exact ⟨rfl, rfl, rfl, _, workers_set_self hq, Or.inl rfl⟩
    · simp only [step, hq, wakeStep] at hs
      split_ifs at hs
  · rcases hs with hs | hs
    · simp only [step, hq, workerThread] at hs
      split_ifs at hs
      simp only [Option.some.injEq] at hs
      subst hs
      exact ⟨rfl, rfl, rfl, _, workers_set_self hq, Or.inl rfl⟩
    · simp only [step, hq, wakeStep] at hs
      split_ifs at hs
      simp only [Option.some.injEq] at hs
      subst hs
      exact ⟨rfl, rfl, rfl, _, workers_set_self hq, Or.inl rfl⟩
  · rcases hs with hs | hs
    · simp only [step, hq, workerThread] at hs
      split_ifs at hs <;> simp only [Option.some.injEq] at hs <;> subst hs
      · exact ⟨rfl, rfl, rfl, _, workers_set_self hq, Or.inr (Or.inr rfl)⟩
      · exact ⟨rfl, rfl, rfl, _, workers_set_self hq, Or.inr (Or.inl rfl)⟩
    · simp only [step, hq, wakeStep] at hs
      split_ifs at hs

/-- C2. In every state the pool reaches from its construction, every
removal in the record was of a task due at the clock reading its worker took
under the lock, and every call of an action in the record was the next thing
its worker recorded after removing a task with that action, due at that
reading.  For every step of the system, from any state: the step removes a
task from the queue only as the pop of a worker that has just locked the
mutex (line 69) and found the first task due at the clock reading; the step
hands a task to execution (a worker arrives at line 108) only by that same
pop, or with empty locals after the wait on the empty queue, which removes
nothing; and the step calls an action only for a worker at line 108 that
holds it.  When the first task is due later than the reading, the worker
that locks the mutex removes nothing, calls nothing and enters the timed
wait, and no step of that wait touches the queue or calls anything before
the worker is back at the loop head or has returned. -/
theorem never_popped_early {σ : Type} (env : Callables σ) (numThreads : Nat)
    (clock : TimePoint) (world : σ) (as : List Action) (p : ThreadPool σ)
    (hrun : run env as (ThreadPool.create numThreads clock world) = some p) :
    (∀ w t now, Event.popped w t now ∈ p.log → t.nextRunTime ≤ now) ∧
    (∀ w f newer older, p.log = newer ++ Event.ran w f :: older →
      ∃ t now, lastBy w older = some (Event.popped w t now) ∧ t.func = some f ∧
        t.nextRunTime ≤ now) ∧
    (∀ (a : Action) (q q' : ThreadPool σ), step env a q = some q' →
      (q'.taskQueue_ = q.taskQueue_ ∨
       (∃ t, q'.taskQueue_ = q.taskQueue_.emplace t) ∨
       (∃ i top, a = Action.worker i ∧ q.workers_[i]? = some Pc.lockQueue ∧
         q.taskQueue_.top = some top ∧ top.nextRunTime ≤ q.clock ∧
         q'.taskQueue_ = q.taskQueue_.pop ∧
         q'.workers_[i]? = some (Pc.runTask top.func top.condition top.repeatInterval) ∧
         q'.log = Event.popped i top q.clock :: q.log)) ∧
      (∀ i tf tc ms, q'.workers_[i]? = some (Pc.runTask tf tc ms) →
        q.workers_[i]? = some (Pc.runTask tf tc ms) ∨
        (a = Action.worker i ∧ q.workers_[i]? = some Pc.waitEmptyDone ∧
          tf = none ∧ tc = none ∧ ms = 0 ∧ q'.taskQueue_ = q.taskQueue_ ∧ q'.log = q.log) ∨
        (a = Action.worker i ∧ q.workers_[i]? = some Pc.lockQueue ∧
          ∃ top, q.taskQueue_.top = some top ∧ top.nextRunTime ≤ q.clock ∧
            tf = top.func ∧ tc = top.condition ∧ ms = top.repeatInterval ∧
            q'.taskQueue_ = q.taskQueue_.pop ∧
            q'.log = Event.popped i top q.clock :: q.log)) ∧
      ((q'.world = q.world ∧ ∀ w f, q'.log ≠ Event.ran w f :: q.log) ∨
       (∃ i f tc ms, a = Action.worker i ∧
         q.workers_[i]? = some (Pc.runTask (some f) tc ms) ∧
         q'.world = env.act f q.world ∧ q'.log = Event.ran i f :: q.log) ∨
       (∃ i tf c ms, a = Action.worker i ∧ q.workers_[i]? = some (Pc.evalCond tf c ms) ∧
         q'.world = (env.cond c q.world).2 ∧
         q'.log = Event.condReturned i tf c (env.cond c q.world).1 :: q.log))) ∧
    (∀ (q q' : ThreadPool σ) (i : Nat) (top : ScheduledTask),
      q.workers_[i]? = some Pc.lockQueue → step env (Action.worker i) q = some q' →
      q.taskQueue_.top = some top → q.clock < top.nextRunTime →
        q'.taskQueue_ = q.taskQueue_ ∧ q'.world = q.world ∧ q'.log = q.log ∧
        q'.workers_[i]? = some (Pc.timedPred
          (wrap64 (q.clock + wrap64 (top.nextRunTime - q.clock))))) ∧
    (∀ (q q' : ThreadPool σ) (i : Nat) (pc : Pc), q.workers_[i]? = some pc →
      pc.inTimedWait = true →
      (step env (Action.worker i) q = some q' ∨ step env (Action.wake i) q = some q') →
        q'.taskQueue_ = q.taskQueue_ ∧ q'.world = q.world ∧ q'.log = q.log ∧
        ∃ pc', q'.workers_[i]? = some pc' ∧
          (pc'.inTimedWait = true ∨ pc' = Pc.loopHead ∨ pc' = Pc.exited)) := by
  have hinv : DueInv p :=
    run_dueInv env as _ p hrun (create_dueInv numThreads clock world)
  refine ⟨fun w t now hm => dueLog_popped hinv.1 w t now hm,
    fun w f newer older hl => dueLog_ran hinv.1 w f newer older hl,
    fun a q q' hs => ⟨step_removal env a q q' hs,
      fun i tf tc ms hr => step_handover env a q q' hs i tf tc ms hr,
      step_calls env a q q' hs⟩,
    fun q q' i top hpc hs ht hlt => lockQueue_notDue env q q' i top hpc hs ht hlt,
    fun q q' i pc hq hin hs => timedWait_inert env q q' i pc hq hin hs⟩

theorem never_popped_early_witness :
    (⟨some 7, some 8, 3000, 0⟩ : ScheduledTask).nextRunTime ≤ 3000 ∧
    (∃ t now, lastBy 0 (zeroCountLog.drop 2) = some (Event.popped 0 t now) ∧
      t.func = some 7 ∧ t.nextRunTime ≤ now) :=
  have h := never_popped_early zeroCountEnv 1 0 0
    (Action.scheduleRepeating 0 (some 7) 0 0 (some 8) :: zeroCountSchedule) zeroCountFinal
    (by rfl)
  ⟨h.1 0 ⟨some 7, some 8, 3000, 0⟩ 3000 (by decide),
   h.2.1 0 7 [Event.condReturned 0 (some 7) 8 false] (zeroCountLog.drop 2) (by rfl)⟩

end CppTaskManager
